import Mathlib

/-!
Verification of the reversi rule engine (src/src/coordinates.rs, board.rs,
position.rs, walker.rs, piece.rs) against its natural-language specification.

The repository holds several iterative snapshots of the same design.  The
capture-resolution snapshot (position.rs) references a `Matrix` cell store and
a `Coords`-level directional walker whose defining files are not in src/; the
matrix read/write is modelled after the `Vec<Vec<char>>` store of board.rs
(`data[row][col]`), and the coordinate walker after the per-direction stepping
of `CoordinatesIterator::next` in coordinates.rs (which agrees with the
walker table of spec section 4.2).

Machine integers (`usize`) are modelled as `Nat`; where over/underflow of a
`usize` operation matters (coordinate parsing, claim C5) the model makes the
debug-build panic explicit as `Option.none`.
-/

/-!
Definitions: the shallow embedding of the program.
-/

/-- Piece, from src/src/piece.rs: two colors. -/
inductive Piece where
  | Blue : Piece
  | Red : Piece
deriving DecidableEq

/-- Piece negation, from `impl Not for Piece` in piece.rs
(`!Blue = Red`, `!Red = Blue`); board.rs calls the same function `flip`. -/
def Piece.not : Piece → Piece
  | .Blue => .Red
  | .Red => .Blue

/-- Coordinates, from src/src/coordinates.rs: a (row, col) pair of `usize`. -/
structure Coordinates where
  row : Nat
  col : Nat
deriving DecidableEq

/-- Direction, from src/src/coordinates.rs (same variants, in declaration
order, as the `Dir` enum used by position.rs). -/
inductive Direction where
  | Up | UpRight | Right | DownRight | Down | DownLeft | Left | UpLeft
deriving DecidableEq

/-- The eight directions in declaration order, as `enum_iterator::all::<Dir>()`
yields them in `Position::solve`. -/
def allDirections : List Direction :=
  [.Up, .UpRight, .Right, .DownRight, .Down, .DownLeft, .Left, .UpLeft]

/-- One step computation of the directional walker, from the body of
`CoordinatesIterator::next` in coordinates.rs with `ix` passed explicitly
(the iterator calls this with ix = 1, 2, 3, ...).  The `Coords`-level
`walker(dir).walk(length)` used by position.rs (whose impl file is not in
src/) computes the same value per the walker table of spec section 4.2. -/
def coordsWalk (c : Coordinates) (d : Direction) (ix : Nat) : Option Coordinates :=
  match d with
  | .Up => if c.row ≥ ix then some ⟨c.row - ix, c.col⟩ else none
  | .UpRight => if c.row ≥ ix then some ⟨c.row - ix, c.col + ix⟩ else none
  | .Right => some ⟨c.row, c.col + ix⟩
  | .DownRight => some ⟨c.row + ix, c.col + ix⟩
  | .Down => some ⟨c.row + ix, c.col⟩
  | .DownLeft => if c.col ≥ ix then some ⟨c.row + ix, c.col - ix⟩ else none
  | .Left => if c.col ≥ ix then some ⟨c.row, c.col - ix⟩ else none
  | .UpLeft =>
    if c.col ≥ ix ∧ c.row ≥ ix then some ⟨c.row - ix, c.col - ix⟩ else none

/-- State of `CoordinatesIterator` from coordinates.rs. -/
structure CoordinatesIterator where
  coordinates : Coordinates
  direction : Direction
  ix : Nat

/-- One `next()` call of `CoordinatesIterator` (coordinates.rs lines 32-107):
evaluate the direction match at the current `ix`, then increment `ix`. -/
def CoordinatesIterator.next (it : CoordinatesIterator) :
    Option Coordinates × CoordinatesIterator :=
  (coordsWalk it.coordinates it.direction it.ix, { it with ix := it.ix + 1 })

/-- `Coordinates::iterator` from coordinates.rs: a fresh iterator with ix = 1. -/
def Coordinates.iterator (c : Coordinates) (d : Direction) : CoordinatesIterator :=
  { coordinates := c, direction := d, ix := 1 }

/-- The value produced by the k-th `next()` call on an iterator (k ≥ 1). -/
def CoordinatesIterator.output (it : CoordinatesIterator) : Nat → Option Coordinates
  | 0 => none
  | 1 => it.next.1
  | Nat.succ (Nat.succ k) => it.next.2.output (Nat.succ k)

/-- Row displacement per unit step of each direction (spec section 4.2 table). -/
def dirRowDelta : Direction → Int
  | .Up => -1 | .UpRight => -1 | .Right => 0 | .DownRight => 1
  | .Down => 1 | .DownLeft => 1 | .Left => 0 | .UpLeft => -1

/-- Column displacement per unit step of each direction (spec section 4.2 table). -/
def dirColDelta : Direction → Int
  | .Up => 0 | .UpRight => 1 | .Right => 1 | .DownRight => 1
  | .Down => 0 | .DownLeft => -1 | .Left => -1 | .UpLeft => -1

/-- Error type of coordinate parsing, from coordinates.rs. -/
inductive CoordinatesError where
  | ParseError : String → CoordinatesError
deriving DecidableEq

deriving instance DecidableEq for Except

/-- Largest value of the Rust `usize` type (64-bit target). -/
def usizeMax : Nat := 2 ^ 64 - 1

/-- Value of one row letter, from `RowIdentifier::parse`:
`(c.to_ascii_uppercase as u8) - ('A' as u8) + 1`. -/
def letterVal (ch : Char) : Nat := ch.toUpper.toNat - 65 + 1

/-- The accumulation loop of `RowIdentifier::parse`:
`res = res * 26; res = res + letterVal c` over the characters. -/
def rowVal (cs : List Char) : Nat :=
  cs.foldl (fun res ch => res * 26 + letterVal ch) 0

/-- RowIdentifier::parse from coordinates.rs lines 176-189: the string must
match `\A([A-Z]|[a-z])+\z`, then the bijective base-26 value minus one is
returned.  Pure-Nat accumulation; the `usize` overflow panic of a debug build
is accounted for at the caller (`Coordinates.fromStr`). -/
def RowIdentifier.parse (cs : List Char) : Except CoordinatesError Nat :=
  if (!cs.isEmpty) && cs.all (fun ch => ch.isUpper || ch.isLower)
  then .ok (rowVal cs - 1)
  else .error (.ParseError (String.mk cs))

/-- The letter-collecting loop of `RowIdentifier::to_str` (coordinates.rs
lines 191-202), producing letters least-significant first; `to_str` reverses
the result. -/
def toStrAux (t : Nat) : List Char :=
  if t = 0 then [] else Char.ofNat ((t - 1) % 26 + 65) :: toStrAux ((t - 1) / 26)
termination_by t
decreasing_by
  simp_wf
  have := Nat.div_le_self (t - 1) 26
  omega

/-- RowIdentifier::to_str from coordinates.rs: bijective base-26 encoding of
`row` (the loop starts from `row + 1`). -/
def RowIdentifier.toStr (row : Nat) : String :=
  String.mk ((toStrAux (row + 1)).reverse)

/-- Value of one decimal digit character. -/
def digitVal (ch : Char) : Nat := ch.toNat - 48

/-- Decimal value of a digit string, as `str::parse::<usize>` computes it
(pure Nat; the overflow failure is accounted for at the caller). -/
def digitsVal (cs : List Char) : Nat :=
  cs.foldl (fun a ch => a * 10 + digitVal ch) 0

/-- Decimal digits of `n`, least-significant first (helper for rendering). -/
def natDigitsAux (n : Nat) : List Char :=
  if n = 0 then [] else Char.ofNat (n % 10 + 48) :: natDigitsAux (n / 10)
termination_by n
decreasing_by
  simp_wf
  have := Nat.div_le_self n 10
  omega

/-- Standard decimal rendering of a `usize`, as the `{}` format of Rust. -/
def natDigits (n : Nat) : List Char :=
  if n = 0 then ['0'] else (natDigitsAux n).reverse

/-- Display for Coordinates, coordinates.rs lines 129-133:
`"{}:{}"` with `RowIdentifier::to_str(self.row)` and `self.col + 1`. -/
def Coordinates.toText (c : Coordinates) : String :=
  RowIdentifier.toStr c.row ++ ":" ++ String.mk (natDigits (c.col + 1))

/-- Coordinates::from_str, coordinates.rs lines 141-170.  The regex
`\A(?P<row>[A-Z]+):(?P<col>\d+)\z` is modelled by splitting at the maximal
uppercase prefix (equivalent, since `[A-Z]`, `:` and `\d` are disjoint
character classes).  The result `none` models a panic of the Rust code in a
debug build: the `.expect` on the column parse (value above `usize::MAX`),
the accumulation overflow inside `RowIdentifier::parse`, and the unchecked
`col - 1` when the column number is 0 (in a release build the latter two
wrap instead of panicking, which equally leaves the claimed error result
unproduced). -/
def Coordinates.fromStr (s : String) : Option (Except CoordinatesError Coordinates) :=
  let cs := s.data
  let rowCs := cs.takeWhile Char.isUpper
  let rest := cs.drop rowCs.length
  match rest with
  | ':' :: colCs =>
    if rowCs.isEmpty || colCs.isEmpty || !(colCs.all Char.isDigit) then
      some (.error (.ParseError s))
    else
      let colv := digitsVal colCs
      if colv > usizeMax then none
      else
        match RowIdentifier.parse rowCs with
        | .error e => some (.error e)
        | .ok row =>
          if rowVal rowCs > usizeMax then none
          else if colv = 0 then none
          else some (.ok ⟨row, colv - 1⟩)
  | _ => some (.error (.ParseError s))

/-- Error type of board operations, from board.rs (the variants are exactly
these four; note there is no InvalidBoardSize variant). -/
inductive BoardError where
  | ParseError | InvalidPosition | PositionAlreadyOccupied | PositionNotOcuppiedError
deriving DecidableEq

/-- Error type of cell-view operations, from position.rs. -/
inductive PositionError where
  | FlipError | PositionAlreadyOccupied
deriving DecidableEq

/-- The cell store: a size and a `Vec<Vec<char>>` character matrix, as in
board.rs (`Board { size, data }`); the `Matrix` referenced by position.rs
(whose file is not in src/) is the same store.  A cell character is `' '`
(Empty), `'B'` (Blue) or `'R'` (Red). -/
structure Grid where
  size : Nat
  data : List (List Char)
deriving DecidableEq

/-- Direct storage read `data[row][col]` (panics in Rust when out of range;
the model defaults to `' '`, and the in-range safety obligations are proved
separately, claim C9). -/
def Grid.read (m : Grid) (c : Coordinates) : Char :=
  (m.data.getD c.row []).getD c.col ' '

/-- Direct storage write `data[row][col] = ch` (out-of-range writes, which
panic in Rust, are no-ops in the model and are proved unreachable from the
validated entry points). -/
def Grid.write (m : Grid) (c : Coordinates) (ch : Char) : Grid :=
  { m with data := m.data.set c.row ((m.data.getD c.row []).set c.col ch) }

/-- Character of a piece, from `impl Into<char> for Piece`. -/
def Piece.toChar : Piece → Char
  | .Blue => 'B'
  | .Red => 'R'

/-- Cell decoding, from `TryFrom<char> for Wrap<Option<Piece>>` in board.rs:
`'B'` and `'R'` are occupied, `' '` is empty; any other character (an error
in board.rs, unreachable from the seeded grid) is treated as empty. -/
def charPiece (ch : Char) : Option Piece :=
  if ch = 'B' then some .Blue else if ch = 'R' then some .Red else none

/-- `Position::piece`: decode the cell under a (grid, coordinate) view. -/
def Position.piece (m : Grid) (c : Coordinates) : Option Piece :=
  charPiece (m.read c)

/-- The seeded cell character of `Board::new` (board.rs lines 74-91): with
`half = size / 2`, the four center cells hold the two colors and every other
cell is empty. -/
def seedChar (size r c : Nat) : Char :=
  let half := size / 2
  if (r = half ∧ c = half) ∨ (r = half - 1 ∧ c = half - 1) then 'B'
  else if (r = half ∧ c = half - 1) ∨ (r = half - 1 ∧ c = half) then 'R'
  else ' '

/-- Board::new from board.rs lines 73-98: builds the seeded `size × size`
matrix and always returns Ok — the function performs no size validation
whatsoever (there is no `size ≤ 4` or parity check in the code, and
`BoardError` has no InvalidBoardSize variant). -/
def Board.new (size : Nat) : Except BoardError Grid :=
  .ok ⟨size, (List.range size).map fun r => (List.range size).map fun c => seedChar size r c⟩

/-- Board::get from board.rs lines 66-71: bounds-validate the coordinate,
returning a cell view (modelled by the validated coordinate; the matrix is
shared) or InvalidPosition. -/
def Board.get (m : Grid) (c : Coordinates) : Except BoardError Coordinates :=
  if m.size > c.row ∧ m.size > c.col then .ok c else .error .InvalidPosition

/-- `impl Walker for PositionWalker` from position.rs lines 40-59: step the
coordinate walker, then keep the result only if both axes are below the
grid size. -/
def posWalk (m : Grid) (c : Coordinates) (d : Direction) (k : Nat) : Option Coordinates :=
  match coordsWalk c d k with
  | some x => if m.size > x.row ∧ m.size > x.col then some x else none
  | none => none

/-- The sequence yielded by iterating a `PositionWalker` (walk 1, walk 2, ...
until the first absent step).  The fuel `m.size` bounds the recursion; for
an on-board origin `posWalk` is none at every k ≥ m.size, so the list equals
the full yielded sequence of the Rust iterator. -/
def rayFrom (m : Grid) (c : Coordinates) (d : Direction) : Nat → Nat → List Coordinates
  | 0, _ => []
  | fuel + 1, k =>
    match posWalk m c d k with
    | some x => x :: rayFrom m c d fuel (k + 1)
    | none => []

/-- All on-board cells outward from `c` in direction `d`, in step order. -/
def ray (m : Grid) (c : Coordinates) (d : Direction) : List Coordinates :=
  rayFrom m c d m.size 1

/-- The flip a capture performs on one cell, from `Position::flip`
(position.rs lines 115-123) as `solve_dir` uses it: replace an occupied
cell's color by its opposite; on an empty cell the error result is ignored
and nothing is written. -/
def flipCell (m : Grid) (c : Coordinates) : Grid :=
  match Position.piece m c with
  | some p => m.write c p.not.toChar
  | none => m

/-- The `turnnables` local of `Position::solve_dir` (position.rs lines
97-101): the maximal prefix of the walker sequence holding the color
opposite to the placed piece. -/
def turnnables (m : Grid) (c : Coordinates) (p : Piece) (d : Direction) : List Coordinates :=
  (ray m c d).takeWhile fun x => Position.piece m x == some p.not

/-- The `turn` local of `Position::solve_dir` (position.rs lines 102-106):
whether the cell one walker step past the last collected cell holds the
placed color. -/
def turnFlag (m : Grid) (c : Coordinates) (p : Piece) (d : Direction) : Bool :=
  (((turnnables m c p d).getLast?.bind fun lastPos => posWalk m lastPos d 1).map
    fun q => Position.piece m q == some p).getD false

/-- Position::solve_dir from position.rs lines 96-113: collect the maximal
prefix of walker cells holding the opposite color (`turnnables`), test
whether the cell one step past the last of them holds the placing color
(`turn`), and if so flip every collected cell. -/
def solveDir (m : Grid) (c : Coordinates) (p : Piece) (d : Direction) : Grid :=
  if turnFlag m c p d then (turnnables m c p d).foldl flipCell m else m

/-- Position::solve from position.rs lines 90-94: run `solve_dir` for the
eight directions in declaration order, sequentially on the shared grid. -/
def solve (m : Grid) (c : Coordinates) (p : Piece) : Grid :=
  allDirections.foldl (fun acc d => solveDir acc c p d) m

/-- Position::place from position.rs lines 81-88: fail when the target is
occupied; otherwise resolve the captures and then write the piece into the
target cell.  The pair returns the error (if any) together with the grid
after the call. -/
def place (m : Grid) (c : Coordinates) (p : Piece) : Option PositionError × Grid :=
  if (Position.piece m c).isSome then (some .PositionAlreadyOccupied, m)
  else (none, (solve m c p).write c p.toChar)

/-- Position::flip from position.rs lines 115-123 as the standalone
operation: error on an empty cell, otherwise write the opposite color. -/
def flipOp (m : Grid) (c : Coordinates) : Option PositionError × Grid :=
  match Position.piece m c with
  | some p => (none, m.write c p.not.toChar)
  | none => (some .FlipError, m)

/-- Number of occupied cells of the grid. -/
def countOcc (m : Grid) : Nat :=
  (m.data.map fun row => row.countP fun ch => (charPiece ch).isSome).sum

/-- Well-formedness of the store: the data is a `size × size` matrix. -/
def Grid.WF (m : Grid) : Prop :=
  m.data.length = m.size ∧ ∀ row ∈ m.data, row.length = m.size

instance (m : Grid) : Decidable m.WF :=
  inferInstanceAs (Decidable (_ ∧ _))

/-- In-range of the raw data (the indices hit real entries of the store). -/
def Grid.inRange (m : Grid) (c : Coordinates) : Prop :=
  c.row < m.data.length ∧ c.col < (m.data.getD c.row []).length

/-- Checked raw read used to state the C9 safety obligations. -/
def Grid.readChecked (m : Grid) (c : Coordinates) : Option Char :=
  (m.data.get? c.row).bind fun row => row.get? c.col

/-- A coordinate lies on the (unbounded) ray of direction `d` from `c`. -/
def onRay (c : Coordinates) (d : Direction) (x : Coordinates) : Prop :=
  ∃ k, 1 ≤ k ∧ coordsWalk c d k = some x

/-- Repeated raw writes of the same piece character, the effect of a valid
capture on the run cells. -/
def writeAll (L : List Coordinates) (p : Piece) (m : Grid) : Grid :=
  L.foldl (fun acc x => acc.write x p.toChar) m

/-- Modelled from the spec (sections 4.4 step 2 and 5): one direction of the
snapshot semantics — the run and anchor are evaluated against the pre-move
grid `m0`, and the run cells are written to the placed color on `acc`. -/
def solveDirSnap (m0 acc : Grid) (c : Coordinates) (p : Piece) (d : Direction) : Grid :=
  if turnFlag m0 c p d then writeAll (turnnables m0 c p d) p acc else acc

/-- The claim's capture condition, in the spec's words: the run is non-empty
and the next on-board cell immediately after the run holds the placed color
(the anchor). -/
def anchoredRun (m : Grid) (c : Coordinates) (p : Piece) (d : Direction) : Prop :=
  turnnables m c p d ≠ [] ∧
    ∃ a, posWalk m c d ((turnnables m c p d).length + 1) = some a ∧
      Position.piece m a = some p

/-- The behavior claim C1 makes about a successful placement: the call
succeeds, the piece is written to the target, each direction's run consists
of the consecutive on-board walker cells holding the opposite color and is
maximal, the run cells end up with the placed color exactly when the run is
non-empty and anchored by the placed color one step beyond it, and the
on-board ray cells beyond the run are untouched in that direction. -/
def placeCaptureProp (m : Grid) (c : Coordinates) (p : Piece) : Prop :=
  (place m c p).1 = none ∧
    Position.piece (place m c p).2 c = some p ∧
    (∀ d i x, (turnnables m c p d).get? i = some x →
        posWalk m c d (i + 1) = some x ∧ Position.piece m x = some p.not) ∧
    (∀ d y, posWalk m c d ((turnnables m c p d).length + 1) = some y →
        Position.piece m y ≠ some p.not) ∧
    (∀ d, anchoredRun m c p d →
        ∀ x ∈ turnnables m c p d, Position.piece (place m c p).2 x = some p) ∧
    (∀ d, ¬ anchoredRun m c p d →
        ∀ x ∈ turnnables m c p d, Position.piece (place m c p).2 x = Position.piece m x) ∧
    (∀ d, ∀ x ∈ ray m c d, x ∉ turnnables m c p d →
        Position.piece (place m c p).2 x = Position.piece m x)

/-- The behavior claim C9 makes about a well-formed grid: get validates the
bounds exactly, walker steps only produce in-bounds views, and every
in-bounds coordinate hits a real entry of the raw character matrix, so the
unchecked `data[row][col]` accesses of the cell-view operations stay in
range. -/
def boundsSafetyProp (m : Grid) : Prop :=
  (∀ c : Coordinates, Board.get m c = .error BoardError.InvalidPosition ↔
      (m.size ≤ c.row ∨ m.size ≤ c.col)) ∧
    (∀ c c2 : Coordinates, Board.get m c = .ok c2 →
      c2 = c ∧ c.row < m.size ∧ c.col < m.size) ∧
    (∀ (c x : Coordinates) (d : Direction) (k : Nat), posWalk m c d k = some x →
      x.row < m.size ∧ x.col < m.size) ∧
    (∀ c : Coordinates, c.row < m.size → c.col < m.size →
      (m.readChecked c).isSome = true)

/-- The behavior claim C10 makes of a standalone flip of an occupied cell:
the call succeeds, replaces the stored color with its opposite (the cell
stays occupied), touches no other cell, and keeps the occupied-cell count
unchanged. -/
def flipSpecProp (m : Grid) (cf : Coordinates) (q : Piece) : Prop :=
  flipOp m cf = (none, m.write cf q.not.toChar) ∧
    Position.piece (flipOp m cf).2 cf = some q.not ∧
    (∀ x, x ≠ cf → Position.piece (flipOp m cf).2 x = Position.piece m x) ∧
    countOcc (flipOp m cf).2 = countOcc m

/-- The behavior claim C10 makes of a successful placement: it succeeds,
turns exactly the target from Empty to Occupied (every other cell keeps its
occupancy), and raises the occupied count by exactly one. -/
def placeCountProp (m : Grid) (c : Coordinates) (p : Piece) : Prop :=
  (place m c p).1 = none ∧
    Position.piece (place m c p).2 c = some p ∧
    (∀ x, x ≠ c →
      (Position.piece (place m c p).2 x).isSome = (Position.piece m x).isSome) ∧
    countOcc (place m c p).2 = countOcc m + 1

/-!
Theorems: the verification of the claims over the embedding.
-/

theorem Piece.not_not (p : Piece) : p.not.not = p := by cases p <;> rfl

theorem CoordinatesIterator.output_eq (c : Coordinates) (d : Direction) :
    ∀ i k, 1 ≤ k → CoordinatesIterator.output ⟨c, d, i⟩ k = coordsWalk c d (i + k - 1) := by
  intro i k
  induction k generalizing i with
  | zero => omega
  | succ k ih =>
    intro _
    match k, ih with
    | 0, _ => simp [CoordinatesIterator.output, CoordinatesIterator.next]
    | Nat.succ k, ih =>
      show CoordinatesIterator.output ⟨c, d, i + 1⟩ (k + 1) = _
      rw [ih (i + 1) (by omega)]
      congr 1
      omega

theorem coordsWalk_int {c x : Coordinates} {d : Direction} {k : Nat}
    (h : coordsWalk c d k = some x) :
    (x.row : Int) = c.row + k * dirRowDelta d ∧
      (x.col : Int) = c.col + k * dirColDelta d := by
  cases d <;> simp only [coordsWalk, ge_iff_le] at h <;>
    (try split at h) <;> cases h <;>
    refine ⟨?_, ?_⟩ <;> dsimp only [dirRowDelta, dirColDelta] <;> omega

theorem coordsWalk_none_iff (c : Coordinates) (d : Direction) (k : Nat) :
    coordsWalk c d k = none ↔
      (match d with
        | .Up | .UpRight => c.row < k
        | .DownLeft | .Left => c.col < k
        | .UpLeft => c.row < k ∨ c.col < k
        | _ => False) := by
  cases d <;> simp [coordsWalk] <;> omega

/-- C7: for every origin, direction and k ≥ 1, the k-th element of the
directional walker is the origin displaced by k steps of the direction's
(row delta, col delta), and it is absent exactly when Up/UpRight with
row < k, DownLeft/Left with col < k, UpLeft with row < k or col < k, and
never for Right, DownRight, Down. -/
theorem CoordinatesIterator.kth_step_spec (c : Coordinates) (d : Direction)
    (k : Nat) (hk : 1 ≤ k) :
    (∀ x, (Coordinates.iterator c d).output k = some x →
        (x.row : Int) = c.row + k * dirRowDelta d ∧
          (x.col : Int) = c.col + k * dirColDelta d) ∧
      ((Coordinates.iterator c d).output k = none ↔
        (match d with
          | .Up | .UpRight => c.row < k
          | .DownLeft | .Left => c.col < k
          | .UpLeft => c.row < k ∨ c.col < k
          | _ => False)) := by
  have hout : (Coordinates.iterator c d).output k = coordsWalk c d k := by
    rw [show Coordinates.iterator c d = ⟨c, d, 1⟩ from rfl,
      CoordinatesIterator.output_eq c d 1 k hk]
    congr 1
    omega
  rw [hout]
  exact ⟨fun x hx => coordsWalk_int hx, coordsWalk_none_iff c d k⟩

/-- Witness for C7 at origin (2,3), direction UpLeft, k = 2. -/
theorem CoordinatesIterator.kth_step_spec_witness :
    1 ≤ 2 ∧
      ((∀ x, (Coordinates.iterator ⟨2, 3⟩ .UpLeft).output 2 = some x →
          (x.row : Int) = (2 : Nat) + 2 * dirRowDelta .UpLeft ∧
            (x.col : Int) = (3 : Nat) + 2 * dirColDelta .UpLeft) ∧
        ((Coordinates.iterator ⟨2, 3⟩ .UpLeft).output 2 = none ↔
          ((2 : Nat) < 2 ∨ (3 : Nat) < 2))) :=
  ⟨by decide, CoordinatesIterator.kth_step_spec ⟨2, 3⟩ .UpLeft 2 (by decide)⟩

theorem charOfNat_toNat {v : Nat} (h : v < 55296) : (Char.ofNat v).toNat = v := by
  have hv : v.isValidChar := Or.inl h
  simp [Char.ofNat, hv, Char.ofNatAux, Char.toNat, UInt32.toNat, BitVec.toNat_ofNatLt]

theorem charOfNat_isUpper {v : Nat} (h65 : 65 ≤ v) (h90 : v ≤ 90) :
    (Char.ofNat v).isUpper = true := by
  have hv : v.isValidChar := Or.inl (by omega)
  simp only [Char.isUpper, Char.ofNat, hv, Char.ofNatAux, dite_true, decide_eq_true_eq,
    Bool.and_eq_true]
  constructor <;> simp [Char.le_def, UInt32.le_def, BitVec.le_def, BitVec.toNat_ofNatLt] <;>
    omega

theorem charOfNat_isDigit {v : Nat} (h48 : 48 ≤ v) (h57 : v ≤ 57) :
    (Char.ofNat v).isDigit = true := by
  have hv : v.isValidChar := Or.inl (by omega)
  simp only [Char.isDigit, Char.ofNat, hv, Char.ofNatAux, dite_true, decide_eq_true_eq,
    Bool.and_eq_true]
  constructor <;> simp [Char.le_def, UInt32.le_def, BitVec.le_def, BitVec.toNat_ofNatLt] <;>
    omega

theorem toUpper_of_upper (c : Char) (h : c.isUpper = true) : c.toUpper = c := by
  simp only [Char.isUpper, Bool.and_eq_true, decide_eq_true_eq] at h
  have h2 := h.2
  have hn : c.toNat ≤ 90 := by
    simp only [Char.le_def, UInt32.le_def, BitVec.le_def] at h2
    simpa [Char.toNat, UInt32.toNat] using h2
  simp only [Char.toUpper]
  split
  · omega
  · rfl

theorem letterVal_charOfNat {j : Nat} (h : j < 26) :
    letterVal (Char.ofNat (j + 65)) = j + 1 := by
  have hu : (Char.ofNat (j + 65)).isUpper = true :=
    charOfNat_isUpper (by omega) (by omega)
  rw [letterVal, toUpper_of_upper _ hu, charOfNat_toNat (by omega)]
  omega

theorem toStrAux_mem_upper : ∀ t, ∀ ch ∈ toStrAux t, ch.isUpper = true := by
  intro t
  induction t using Nat.strong_induction_on with
  | _ t ih =>
    intro ch hch
    rw [toStrAux] at hch
    split at hch
    · simp at hch
    · rcases List.mem_cons.mp hch with h | h
      · subst h
        exact charOfNat_isUpper (by omega) (by have := Nat.mod_lt (t - 1) (y := 26); omega)
      · exact ih ((t - 1) / 26)
          (by have := Nat.div_le_self (t - 1) 26; omega) ch h

theorem toStrAux_ne_nil {t : Nat} (h : t ≠ 0) : toStrAux t ≠ [] := by
  rw [toStrAux]
  simp [h]

theorem rowVal_foldl_toStrAux : ∀ t, ∀ a : Nat,
    ((toStrAux t).reverse).foldl (fun res ch => res * 26 + letterVal ch) a
      = a * 26 ^ (toStrAux t).length + t := by
  intro t
  induction t using Nat.strong_induction_on with
  | _ t ih =>
    intro a
    rw [toStrAux]
    split
    · simp
      omega
    · rename_i ht
      rw [List.reverse_cons, List.foldl_append,
        ih ((t - 1) / 26) (by have := Nat.div_le_self (t - 1) 26; omega) a]
      simp only [List.foldl_cons, List.foldl_nil, List.length_cons]
      rw [letterVal_charOfNat (Nat.mod_lt (t - 1) (by omega))]
      have hdm := Nat.div_add_mod (t - 1) 26
      have e1 : (a * 26 ^ (toStrAux ((t - 1) / 26)).length + (t - 1) / 26) * 26
            + ((t - 1) % 26 + 1)
          = a * (26 ^ (toStrAux ((t - 1) / 26)).length * 26)
            + ((t - 1) / 26 * 26 + ((t - 1) % 26 + 1)) := by ring
      rw [e1, pow_succ]
      omega

theorem rowVal_toStr (n : Nat) : rowVal ((toStrAux (n + 1)).reverse) = n + 1 := by
  rw [rowVal, rowVal_foldl_toStrAux]
  simp

theorem natDigitsAux_mem_digit : ∀ n, ∀ ch ∈ natDigitsAux n, ch.isDigit = true := by
  intro n
  induction n using Nat.strong_induction_on with
  | _ n ih =>
    intro ch hch
    rw [natDigitsAux] at hch
    split at hch
    · simp at hch
    · rcases List.mem_cons.mp hch with h | h
      · subst h
        exact charOfNat_isDigit (by omega) (by have := Nat.mod_lt n (y := 10); omega)
      · exact ih (n / 10) (by have := Nat.div_le_self n 10; omega) ch h

theorem natDigitsAux_ne_nil {n : Nat} (h : n ≠ 0) : natDigitsAux n ≠ [] := by
  rw [natDigitsAux]
  simp [h]

theorem digitVal_charOfNat {j : Nat} (h : j < 10) :
    digitVal (Char.ofNat (j + 48)) = j := by
  rw [digitVal, charOfNat_toNat (by omega)]
  omega

theorem digitsVal_foldl_natDigitsAux : ∀ n, ∀ a : Nat,
    ((natDigitsAux n).reverse).foldl (fun acc ch => acc * 10 + digitVal ch) a
      = a * 10 ^ (natDigitsAux n).length + n := by
  intro n
  induction n using Nat.strong_induction_on with
  | _ n ih =>
    intro a
    rw [natDigitsAux]
    split
    · simp
      omega
    · rename_i hn
      rw [List.reverse_cons, List.foldl_append,
        ih (n / 10) (by have := Nat.div_le_self n 10; omega) a]
      simp only [List.foldl_cons, List.foldl_nil, List.length_cons]
      rw [digitVal_charOfNat (Nat.mod_lt n (by omega))]
      have hdm := Nat.div_add_mod n 10
      have e1 : (a * 10 ^ (natDigitsAux (n / 10)).length + n / 10) * 10 + n % 10
          = a * (10 ^ (natDigitsAux (n / 10)).length * 10)
            + (n / 10 * 10 + n % 10) := by ring
      rw [e1, pow_succ]
      omega

theorem digitsVal_natDigits {n : Nat} (h : n ≠ 0) : digitsVal (natDigits n) = n := by
  rw [natDigits, if_neg h, digitsVal, digitsVal_foldl_natDigitsAux]
  simp

theorem takeWhile_eq_left (q : Char → Bool) : ∀ (l1 l2 : List Char),
    (∀ x ∈ l1, q x = true) → (∀ hd, l2.head? = some hd → q hd = false) →
    (l1 ++ l2).takeWhile q = l1 := by
  intro l1
  induction l1 with
  | nil =>
    intro l2 _ h2
    cases l2 with
    | nil => rfl
    | cons hd tl => simp [List.takeWhile_cons, h2 hd rfl]
  | cons hd tl ih =>
    intro l2 h1 h2
    simp only [List.cons_append, List.takeWhile_cons, h1 hd (by simp), if_true]
    rw [ih l2 (fun x hx => h1 x (by simp [hx])) h2]

theorem fromStr_spec (L D : List Char) (hLup : ∀ x ∈ L, x.isUpper = true) (hLne : L ≠ [])
    (hDdig : ∀ x ∈ D, x.isDigit = true) (hDne : D ≠ [])
    (hcolmax : digitsVal D ≤ usizeMax) (hcolpos : digitsVal D ≠ 0)
    (hrowmax : rowVal L ≤ usizeMax) :
    Coordinates.fromStr (String.mk (L ++ ':' :: D))
      = some (.ok ⟨rowVal L - 1, digitsVal D - 1⟩) := by
  have htake : (L ++ ':' :: D).takeWhile Char.isUpper = L := by
    apply takeWhile_eq_left _ L (':' :: D) hLup
    intro hd hhd
    simp only [List.head?_cons, Option.some.injEq] at hhd
    subst hhd
    decide
  have hdrop : (L ++ ':' :: D).drop L.length = ':' :: D := List.drop_left L (':' :: D)
  have hLe : L.isEmpty = false := by simp [List.isEmpty_iff, hLne]
  have hDe : D.isEmpty = false := by simp [List.isEmpty_iff, hDne]
  have hDall : D.all Char.isDigit = true := List.all_eq_true.mpr hDdig
  simp only [Coordinates.fromStr, String.data, htake, hdrop]
  rw [hLe, hDe, hDall]
  simp only [Bool.or_false, Bool.or_self, Bool.not_true, Bool.false_eq_true, if_false]
  rw [if_neg (by omega)]
  have hparse : RowIdentifier.parse L = .ok (rowVal L - 1) := by
    have hc : (!L.isEmpty && L.all fun ch => ch.isUpper || ch.isLower) = true := by
      rw [hLe]
      simp only [Bool.not_false, Bool.true_and, List.all_eq_true]
      intro x hx
      simp [hLup x hx]
    rw [RowIdentifier.parse, if_pos hc]
  rw [hparse]
  dsimp only
  rw [if_neg (by omega), if_neg hcolpos]

/-- C6: full round-trip `parse(format(c)) = c` for every coordinate whose
components are representable `usize` values (`row + 1`, `col + 1` fit in 64
bits; every coordinate valid on any constructible grid satisfies this), the
row encoding and decoding are mutually inverse (`decodeRow(encodeRow(n)) = n`
for every n ≥ 0), and the literal cases `encodeRow(0) = "A"`,
`encodeRow(25) = "Z"`, `encodeRow(26) = "AA"`, `decodeRow("AA") = 26`. -/
theorem Coordinates.parse_format_roundtrip :
    (∀ row col : Nat, row + 1 < 2 ^ 64 → col + 1 < 2 ^ 64 →
        Coordinates.fromStr (Coordinates.toText ⟨row, col⟩) = some (.ok ⟨row, col⟩)) ∧
      (∀ n : Nat, RowIdentifier.parse (RowIdentifier.toStr n).data = .ok n) ∧
      RowIdentifier.toStr 0 = "A" ∧ RowIdentifier.toStr 25 = "Z" ∧
      RowIdentifier.toStr 26 = "AA" ∧ RowIdentifier.parse "AA".data = .ok 26 := by
  have hdec : ∀ n : Nat, RowIdentifier.parse (RowIdentifier.toStr n).data = .ok n := by
    intro n
    show RowIdentifier.parse ((toStrAux (n + 1)).reverse) = .ok n
    have hc : (!((toStrAux (n + 1)).reverse).isEmpty
        && ((toStrAux (n + 1)).reverse).all fun ch => ch.isUpper || ch.isLower) = true := by
      simp only [Bool.and_eq_true, Bool.not_eq_true', List.isEmpty_iff, List.all_eq_true]
      constructor
      · simp [toStrAux_ne_nil (Nat.succ_ne_zero n)]
      · intro x hx
        simp [toStrAux_mem_upper (n + 1) x (List.mem_reverse.mp hx)]
    rw [RowIdentifier.parse, if_pos hc, rowVal_toStr]
    simp
  have e0 : toStrAux 0 = [] := by
    rw [toStrAux]
    norm_num
  have e1 : toStrAux 1 = ['A'] := by
    rw [toStrAux]
    norm_num [e0]
  have e26 : toStrAux 26 = ['Z'] := by
    rw [toStrAux]
    norm_num [e0]
  have e27 : toStrAux 27 = ['A', 'A'] := by
    rw [toStrAux]
    norm_num [e1]
  refine ⟨?_, hdec, ?_, ?_, ?_, ?_⟩
  · intro row col hrow hcol
    have hL : ∀ x ∈ (toStrAux (row + 1)).reverse, x.isUpper = true :=
      fun x hx => toStrAux_mem_upper (row + 1) x (List.mem_reverse.mp hx)
    have hD : ∀ x ∈ natDigits (col + 1), x.isDigit = true := by
      intro x hx
      rw [natDigits, if_neg (Nat.succ_ne_zero col)] at hx
      exact natDigitsAux_mem_digit (col + 1) x (List.mem_reverse.mp hx)
    have hDv : digitsVal (natDigits (col + 1)) = col + 1 :=
      digitsVal_natDigits (Nat.succ_ne_zero col)
    have htext : Coordinates.toText ⟨row, col⟩
        = String.mk ((toStrAux (row + 1)).reverse ++ ':' :: natDigits (col + 1)) := by
      apply String.ext
      show ((RowIdentifier.toStr row ++ ":") ++ String.mk (natDigits (col + 1))).data = _
      rw [String.data_append, String.data_append]
      show ((toStrAux (row + 1)).reverse ++ [':']) ++ natDigits (col + 1) = _
      rw [List.append_assoc]
      rfl
    rw [htext, fromStr_spec]
    · rw [hDv, rowVal_toStr]
      simp
    · exact hL
    · simp [toStrAux_ne_nil (Nat.succ_ne_zero row)]
    · exact hD
    · rw [natDigits, if_neg (Nat.succ_ne_zero col)]
      simp [natDigitsAux_ne_nil (Nat.succ_ne_zero col)]
    · rw [hDv, usizeMax]
      omega
    · rw [hDv]
      omega
    · rw [rowVal_toStr, usizeMax]
      omega
  · show String.mk ((toStrAux 1).reverse) = "A"
    rw [e1]
    rfl
  · show String.mk ((toStrAux 26).reverse) = "Z"
    rw [e26]
    rfl
  · show String.mk ((toStrAux 27).reverse) = "AA"
    rw [e27]
    rfl
  · decide

/-- Witness for C6: the round-trip applied at the concrete coordinate
(26, 25), i.e. parse("AA:26") = (26, 25). -/
theorem Coordinates.parse_format_roundtrip_witness :
    26 + 1 < 2 ^ 64 ∧ 25 + 1 < 2 ^ 64 ∧
      Coordinates.fromStr (Coordinates.toText ⟨26, 25⟩) = some (.ok ⟨26, 25⟩) :=
  ⟨by decide, by decide,
    Coordinates.parse_format_roundtrip.1 26 25 (by decide) (by decide)⟩

/-- C5 is violated by the code (code bug): parsing is not total on bad
column numbers.  `from_str("A:0")` reaches the unchecked `col - 1` with
col = 0, which panics in a debug build (wraps to `usize::MAX` in release)
instead of returning a ParseError, and a column literal above `usize::MAX`
panics inside `.expect` on the integer parse; `none` below models the
panic.  A well-formed input such as "A:1" parses normally. -/
theorem Coordinates.fromStr_col_zero_panics :
    Coordinates.fromStr "A:0" = none ∧
      Coordinates.fromStr "A:18446744073709551616" = none ∧
      Coordinates.fromStr "A:1" = some (.ok ⟨0, 0⟩) := by
  refine ⟨by decide, by decide, by decide⟩

/-- C8 is violated by the code (code bug): `Coordinates::from_str` uses the
row regex `[A-Z]+`, so the lowercase input "a:1" is rejected with a
ParseError even though the claim (and `RowIdentifier::parse` itself, which
accepts `[a-z]` and uppercases every character) says lowercase input parses
like its uppercase counterpart "A:1". -/
theorem Coordinates.fromStr_rejects_lowercase :
    Coordinates.fromStr "a:1" = some (.error (.ParseError "a:1")) ∧
      Coordinates.fromStr "A:1" = some (.ok ⟨0, 0⟩) ∧
      RowIdentifier.parse "a".data = .ok 0 ∧
      RowIdentifier.parse "A".data = .ok 0 := by
  refine ⟨by decide, by decide, by decide, by decide⟩

theorem getD_set_ne {α : Type} (l : List α) (i j : Nat) (a d : α) (h : i ≠ j) :
    (l.set i a).getD j d = l.getD j d := by
  show ((l.set i a).get? j).getD d = (l.get? j).getD d
  rw [List.get?_set_ne a l h]

theorem getD_set_self {α : Type} (l : List α) (i : Nat) (a d : α) (h : i < l.length) :
    (l.set i a).getD i d = a := by
  show ((l.set i a).get? i).getD d = a
  rw [List.get?_set_eq_of_lt a h]
  rfl

theorem Grid.size_write (m : Grid) (c : Coordinates) (ch : Char) :
    (m.write c ch).size = m.size := rfl

theorem Grid.read_write_ne {m : Grid} {x y : Coordinates} {ch : Char} (h : x ≠ y) :
    (m.write y ch).read x = m.read x := by
  show ((m.data.set y.row _).getD x.row []).getD x.col ' ' = (m.data.getD x.row []).getD x.col ' '
  by_cases hr : y.row = x.row
  · have hc : x.col ≠ y.col := by
      intro hc
      exact h (by cases x; cases y; simp_all)
    rw [hr]
    by_cases hlen : x.row < m.data.length
    · rw [getD_set_self _ _ _ _ hlen]
      exact getD_set_ne _ _ _ _ _ (fun e => hc e.symm)
    · rw [List.set_eq_of_length_le (by omega)]
  · rw [getD_set_ne _ _ _ _ _ hr]

theorem Grid.read_write_self {m : Grid} {y : Coordinates} {ch : Char} (h : m.inRange y) :
    (m.write y ch).read y = ch := by
  show ((m.data.set y.row _).getD y.row []).getD y.col ' ' = ch
  rw [getD_set_self _ _ _ _ h.1, getD_set_self _ _ _ _ h.2]

theorem piece_some_inRange {m : Grid} {c : Coordinates} {q : Piece}
    (h : Position.piece m c = some q) : m.inRange c := by
  by_contra hc
  rw [Grid.inRange, not_and_or] at hc
  have hread : m.read c = ' ' := by
    rcases hc with hc | hc
    · show ((m.data.get? c.row).getD []).getD c.col ' ' = ' '
      rw [List.get?_len_le (by omega)]
      rfl
    · show ((m.data.getD c.row []).get? c.col).getD ' ' = ' '
      rw [List.get?_len_le (by omega)]
      rfl
  rw [Position.piece, hread] at h
  simp [charPiece] at h

theorem charPiece_toChar (p : Piece) : charPiece p.toChar = some p := by
  cases p <;> rfl

theorem Grid.inRange_write {m : Grid} (y : Coordinates) (ch : Char) (x : Coordinates) :
    (m.write y ch).inRange x ↔ m.inRange x := by
  unfold Grid.inRange Grid.write
  dsimp only
  rw [List.length_set]
  by_cases hr : y.row = x.row
  · rw [hr]
    by_cases hlen : x.row < m.data.length
    · rw [getD_set_self _ _ _ _ hlen, List.length_set]
    · rw [List.set_eq_of_length_le (by omega)]
  · rw [getD_set_ne _ _ _ _ _ hr]

theorem Grid.write_comm {m : Grid} {x y : Coordinates} {a b : Char} (h : x ≠ y) :
    (m.write x a).write y b = (m.write y b).write x a := by
  unfold Grid.write
  simp only [Grid.mk.injEq, true_and]
  by_cases hr : x.row = y.row
  · have hc : x.col ≠ y.col := by
      intro hc
      exact h (by cases x; cases y; simp_all)
    rw [← hr]
    by_cases hlen : x.row < m.data.length
    · have gA : (m.data.set x.row ((m.data.getD x.row []).set x.col a)).getD x.row []
          = (m.data.getD x.row []).set x.col a := getD_set_self _ _ _ _ hlen
      have gB : (m.data.set x.row ((m.data.getD x.row []).set y.col b)).getD x.row []
          = (m.data.getD x.row []).set y.col b := getD_set_self _ _ _ _ hlen
      rw [gA, gB, List.set_set, List.set_set, List.set_comm _ _ _ hc]
    · have hle : m.data.length ≤ x.row := by omega
      simp [List.set_eq_of_length_le hle]
  · rw [getD_set_ne _ _ _ _ _ (fun e => hr e.symm), getD_set_ne _ _ _ _ _ hr,
      List.set_comm _ _ _ hr]

theorem piece_write_ne {m : Grid} {x y : Coordinates} {ch : Char} (h : x ≠ y) :
    Position.piece (m.write y ch) x = Position.piece m x := by
  rw [Position.piece, Position.piece, Grid.read_write_ne h]

theorem piece_write_self {m : Grid} {y : Coordinates} {ch : Char} (h : m.inRange y) :
    Position.piece (m.write y ch) y = charPiece ch := by
  rw [Position.piece, Grid.read_write_self h]

theorem coordsWalk_inj {c x : Coordinates} {d d' : Direction} {k l : Nat}
    (hk : 1 ≤ k) (hl : 1 ≤ l)
    (h1 : coordsWalk c d k = some x) (h2 : coordsWalk c d' l = some x) :
    d = d' ∧ k = l := by
  obtain ⟨hr1, hc1⟩ := coordsWalk_int h1
  obtain ⟨hr2, hc2⟩ := coordsWalk_int h2
  cases d <;> cases d' <;>
    dsimp only [dirRowDelta, dirColDelta] at hr1 hc1 hr2 hc2 <;>
    first
      | exact ⟨rfl, by omega⟩
      | (exfalso; omega)

theorem onRay_disjoint {c x : Coordinates} {d d' : Direction} (hne : d ≠ d')
    (h : onRay c d x) (h2 : onRay c d' x) : False := by
  obtain ⟨k, hk, hw⟩ := h
  obtain ⟨l, hl, hw2⟩ := h2
  exact hne (coordsWalk_inj hk hl hw hw2).1

theorem onRay_ne_origin {c x : Coordinates} {d : Direction} (h : onRay c d x) : x ≠ c := by
  obtain ⟨k, hk, hw⟩ := h
  obtain ⟨hr, hc⟩ := coordsWalk_int hw
  intro he
  subst he
  cases d <;> dsimp only [dirRowDelta, dirColDelta] at hr hc <;> omega

theorem coordsWalk_succ {c x : Coordinates} {d : Direction} {j : Nat}
    (h : coordsWalk c d j = some x) : coordsWalk x d 1 = coordsWalk c d (j + 1) := by
  cases d <;> simp only [coordsWalk, ge_iff_le] at h ⊢ <;> (try split at h) <;> cases h <;>
    (try split_ifs) <;>
    (try dsimp only at *) <;>
    first
      | rfl
      | (exfalso; omega)
      | (simp only [Option.some.injEq, Coordinates.mk.injEq]
         constructor <;> omega)

theorem posWalk_congr {m m' : Grid} (h : m.size = m'.size) (c : Coordinates)
    (d : Direction) (k : Nat) : posWalk m c d k = posWalk m' c d k := by
  unfold posWalk
  rw [h]

theorem posWalk_some {m : Grid} {c x : Coordinates} {d : Direction} {k : Nat}
    (h : posWalk m c d k = some x) :
    coordsWalk c d k = some x ∧ x.row < m.size ∧ x.col < m.size := by
  cases hcw : coordsWalk c d k with
  | none =>
    simp only [posWalk, hcw] at h
    cases h
  | some y =>
    simp only [posWalk, hcw] at h
    split at h
    · cases h
      rename_i hb
      exact ⟨rfl, hb.1, hb.2⟩
    · cases h

theorem posWalk_succ {m : Grid} {c x : Coordinates} {d : Direction} {j : Nat}
    (h : posWalk m c d j = some x) : posWalk m x d 1 = posWalk m c d (j + 1) := by
  obtain ⟨hcw, _, _⟩ := posWalk_some h
  unfold posWalk
  rw [coordsWalk_succ hcw]

theorem rayFrom_mem {m : Grid} {c : Coordinates} {d : Direction} :
    ∀ fuel k0 x, x ∈ rayFrom m c d fuel k0 → ∃ j, k0 ≤ j ∧ posWalk m c d j = some x := by
  intro fuel
  induction fuel with
  | zero => intro k0 x hx; simp [rayFrom] at hx
  | succ fuel ih =>
    intro k0 x hx
    rw [rayFrom] at hx
    cases hpw : posWalk m c d k0 with
    | none => rw [hpw] at hx; simp at hx
    | some y =>
      rw [hpw] at hx
      rcases List.mem_cons.mp hx with h | h
      · exact ⟨k0, le_refl _, by rw [hpw, h]⟩
      · obtain ⟨j, hj, hw⟩ := ih (k0 + 1) x h
        exact ⟨j, by omega, hw⟩

theorem rayFrom_get? {m : Grid} {c : Coordinates} {d : Direction} :
    ∀ fuel k0 i x, (rayFrom m c d fuel k0).get? i = some x →
      posWalk m c d (k0 + i) = some x := by
  intro fuel
  induction fuel with
  | zero => intro k0 i x hx; simp [rayFrom] at hx
  | succ fuel ih =>
    intro k0 i x hx
    rw [rayFrom] at hx
    cases hpw : posWalk m c d k0 with
    | none => rw [hpw] at hx; simp at hx
    | some y =>
      rw [hpw] at hx
      cases i with
      | zero =>
        simp only [List.get?_cons_zero, Option.some.injEq] at hx
        rw [Nat.add_zero, hpw, hx]
      | succ i =>
        simp only [List.get?_cons_succ] at hx
        have := ih (k0 + 1) i x hx
        rw [show k0 + (i + 1) = k0 + 1 + i by omega]
        exact this

theorem rayFrom_nodup {m : Grid} {c : Coordinates} {d : Direction} :
    ∀ fuel k0, 1 ≤ k0 → (rayFrom m c d fuel k0).Nodup := by
  intro fuel
  induction fuel with
  | zero => intro k0 _; simp [rayFrom]
  | succ fuel ih =>
    intro k0 hk0
    rw [rayFrom]
    cases hpw : posWalk m c d k0 with
    | none => simp
    | some y =>
      rw [List.nodup_cons]
      refine ⟨?_, ih (k0 + 1) (by omega)⟩
      intro hy
      obtain ⟨j, hj, hw⟩ := rayFrom_mem fuel (k0 + 1) y hy
      have h1 := (posWalk_some hpw).1
      have h2 := (posWalk_some hw).1
      have := (coordsWalk_inj hk0 (by omega) h1 h2).2
      omega

theorem ray_mem {m : Grid} {c x : Coordinates} {d : Direction} (hx : x ∈ ray m c d) :
    ∃ j, 1 ≤ j ∧ posWalk m c d j = some x :=
  rayFrom_mem m.size 1 x hx

theorem ray_mem_onRay {m : Grid} {c x : Coordinates} {d : Direction} (hx : x ∈ ray m c d) :
    onRay c d x := by
  obtain ⟨j, hj, hw⟩ := ray_mem hx
  exact ⟨j, hj, (posWalk_some hw).1⟩

theorem ray_nodup (m : Grid) (c : Coordinates) (d : Direction) : (ray m c d).Nodup :=
  rayFrom_nodup m.size 1 (by omega)

theorem ray_congr {m m' : Grid} (h : m.size = m'.size) (c : Coordinates) (d : Direction) :
    ray m c d = ray m' c d := by
  have haux : ∀ fuel k0, rayFrom m c d fuel k0 = rayFrom m' c d fuel k0 := by
    intro fuel
    induction fuel with
    | zero => intro k0; rfl
    | succ fuel ih =>
      intro k0
      rw [rayFrom, rayFrom, posWalk_congr h]
      cases posWalk m' c d k0 with
      | none => rfl
      | some y => rw [ih (k0 + 1)]
  rw [ray, ray, h, haux]

theorem takeWhile_congr' {α : Type} (p q : α → Bool) :
    ∀ l : List α, (∀ x ∈ l, p x = q x) → l.takeWhile p = l.takeWhile q := by
  intro l
  induction l with
  | nil => intro _; rfl
  | cons a t ih =>
    intro h
    rw [List.takeWhile_cons, List.takeWhile_cons, h a (by simp)]
    cases q a
    · rfl
    · rw [ih fun x hx => h x (by simp [hx])]

theorem takeWhile_get? {α : Type} (p : α → Bool) :
    ∀ (l : List α) i x, (l.takeWhile p).get? i = some x → l.get? i = some x := by
  intro l
  induction l with
  | nil => intro i x hx; simp [List.takeWhile] at hx
  | cons a t ih =>
    intro i x hx
    rw [List.takeWhile_cons] at hx
    cases hp : p a with
    | false => rw [hp] at hx; simp at hx
    | true =>
      rw [hp] at hx
      cases i with
      | zero => simpa using hx
      | succ i =>
        simp only [List.get?_cons_succ] at hx ⊢
        exact ih i x hx

theorem mem_turnnables {m : Grid} {c x : Coordinates} {p : Piece} {d : Direction}
    (hx : x ∈ turnnables m c p d) :
    x ∈ ray m c d ∧ Position.piece m x = some p.not := by
  refine ⟨(List.takeWhile_sublist _).subset hx, ?_⟩
  have := List.mem_takeWhile_imp hx
  simpa using this

theorem turnnables_nodup (m : Grid) (c : Coordinates) (p : Piece) (d : Direction) :
    (turnnables m c p d).Nodup :=
  (ray_nodup m c d).sublist (List.takeWhile_sublist _)

theorem writeAll_size (L : List Coordinates) (p : Piece) : ∀ m : Grid,
    (writeAll L p m).size = m.size := by
  induction L with
  | nil => intro m; rfl
  | cons a t ih =>
    intro m
    rw [writeAll, List.foldl_cons]
    exact ih (m.write a p.toChar)

theorem writeAll_inRange (L : List Coordinates) (p : Piece) : ∀ (m : Grid) (y : Coordinates),
    (writeAll L p m).inRange y ↔ m.inRange y := by
  induction L with
  | nil => intro m y; exact Iff.rfl
  | cons a t ih =>
    intro m y
    rw [writeAll, List.foldl_cons]
    exact (ih (m.write a p.toChar) y).trans (Grid.inRange_write a p.toChar y)

theorem writeAll_piece_notMem (L : List Coordinates) (p : Piece) :
    ∀ (m : Grid) (x : Coordinates), x ∉ L →
      Position.piece (writeAll L p m) x = Position.piece m x := by
  induction L with
  | nil => intro m x _; rfl
  | cons a t ih =>
    intro m x hx
    rw [writeAll, List.foldl_cons]
    have hxa : x ≠ a := fun e => hx (by simp [e])
    rw [show (t.foldl (fun acc x => acc.write x p.toChar) (m.write a p.toChar))
        = writeAll t p (m.write a p.toChar) from rfl,
      ih (m.write a p.toChar) x (fun hmem => hx (by simp [hmem])), piece_write_ne hxa]

theorem writeAll_piece_mem (L : List Coordinates) (p : Piece) :
    ∀ (m : Grid) (x : Coordinates), L.Nodup → x ∈ L → m.inRange x →
      Position.piece (writeAll L p m) x = some p := by
  induction L with
  | nil => intro m x _ hx; simp at hx
  | cons a t ih =>
    intro m x hnd hx hin
    rw [writeAll, List.foldl_cons]
    rw [List.nodup_cons] at hnd
    rcases List.mem_cons.mp hx with h | h
    · subst h
      rw [show (t.foldl (fun acc y => acc.write y p.toChar) (m.write x p.toChar))
          = writeAll t p (m.write x p.toChar) from rfl,
        writeAll_piece_notMem t p _ x hnd.1, piece_write_self hin, charPiece_toChar]
    · exact ih (m.write a p.toChar) x hnd.2 h ((Grid.inRange_write a p.toChar x).mpr hin)

theorem flipCell_piece_isSome (m : Grid) (y x : Coordinates) :
    (Position.piece (flipCell m y) x).isSome = (Position.piece m x).isSome := by
  rw [flipCell]
  cases hy : Position.piece m y with
  | none => rfl
  | some q =>
    by_cases hxy : x = y
    · subst hxy
      rw [piece_write_self (piece_some_inRange hy), charPiece_toChar, hy]
      rfl
    · rw [piece_write_ne hxy]

theorem flipCell_piece_ne {m : Grid} {y x : Coordinates} (h : x ≠ y) :
    Position.piece (flipCell m y) x = Position.piece m x := by
  rw [flipCell]
  cases Position.piece m y with
  | none => rfl
  | some q => exact piece_write_ne h

theorem flipCell_size (m : Grid) (y : Coordinates) : (flipCell m y).size = m.size := by
  rw [flipCell]
  cases Position.piece m y <;> rfl

theorem foldl_flipCell_eq_writeAll (p : Piece) : ∀ (L : List Coordinates) (m : Grid),
    L.Nodup → (∀ x ∈ L, Position.piece m x = some p.not) →
    L.foldl flipCell m = writeAll L p m := by
  intro L
  induction L with
  | nil => intro m _ _; rfl
  | cons a t ih =>
    intro m hnd hall
    rw [List.nodup_cons] at hnd
    have ha : Position.piece m a = some p.not := hall a (by simp)
    have hstep : flipCell m a = m.write a p.toChar := by
      simp only [flipCell, ha, Piece.not_not]
    rw [List.foldl_cons, hstep, writeAll, List.foldl_cons]
    refine ih (m.write a p.toChar) hnd.2 fun x hx => ?_
    have hxa : x ≠ a := fun e => hnd.1 (by subst e; exact hx)
    exact (piece_write_ne hxa).trans (hall x (by simp [hx]))

theorem getD_irrel {α : Type} (l : List α) (j : Nat) (d1 d2 : α) (h : j < l.length) :
    l.getD j d1 = l.getD j d2 := by
  show (l.get? j).getD d1 = (l.get? j).getD d2
  cases hj : l.get? j with
  | none => exact absurd (List.get?_eq_none.mp hj) (by omega)
  | some a => rfl

theorem countP_set_add (q : Char → Bool) : ∀ (l : List Char) (j : Nat) (a d : Char),
    j < l.length →
    (l.set j a).countP q + (if q (l.getD j d) then 1 else 0)
      = l.countP q + (if q a then 1 else 0) := by
  intro l
  induction l with
  | nil => intro j a d h; simp at h
  | cons b t ih =>
    intro j a d h
    cases j with
    | zero =>
      simp only [List.set_cons_zero, List.getD_cons_zero, List.countP_cons]
      omega
    | succ j =>
      simp only [List.set_cons_succ, List.getD_cons_succ, List.countP_cons]
      have := ih j a d (by simpa using h)
      omega

theorem summap_set_add (f : List Char → Nat) : ∀ (l : List (List Char)) (i : Nat)
    (v d : List Char), i < l.length →
    ((l.set i v).map f).sum + f (l.getD i d) = (l.map f).sum + f v := by
  intro l
  induction l with
  | nil => intro i v d h; simp at h
  | cons b t ih =>
    intro i v d h
    cases i with
    | zero =>
      simp only [List.set_cons_zero, List.getD_cons_zero, List.map_cons, List.sum_cons]
      omega
    | succ i =>
      simp only [List.set_cons_succ, List.getD_cons_succ, List.map_cons, List.sum_cons]
      have := ih i v d (by simpa using h)
      omega

theorem countOcc_write_occ {m : Grid} {y : Coordinates} {q : Piece} {ch : Char}
    (hq : Position.piece m y = some q) (hch : (charPiece ch).isSome = true) :
    countOcc (m.write y ch) = countOcc m := by
  have hin := piece_some_inRange hq
  have hrow := summap_set_add (fun row => row.countP fun c => (charPiece c).isSome)
    m.data y.row ((m.data.getD y.row []).set y.col ch) [] hin.1
  have hcell := countP_set_add (fun c => (charPiece c).isSome)
    (m.data.getD y.row []) y.col ch ' ' hin.2
  simp only [] at hrow hcell
  have hold : (charPiece ((m.data.getD y.row []).getD y.col ' ')).isSome = true := by
    have he : Position.piece m y = charPiece ((m.data.getD y.row []).getD y.col ' ') := rfl
    rw [← he, hq]
    rfl
  simp only [hold, hch, eq_self_iff_true, if_true] at hcell
  show ((m.data.set y.row ((m.data.getD y.row []).set y.col ch)).map
    fun row => row.countP fun c => (charPiece c).isSome).sum
    = (m.data.map fun row => row.countP fun c => (charPiece c).isSome).sum
  omega

theorem countOcc_write_empty {m : Grid} {y : Coordinates} {ch : Char}
    (hin : m.inRange y) (hemp : Position.piece m y = none)
    (hch : (charPiece ch).isSome = true) :
    countOcc (m.write y ch) = countOcc m + 1 := by
  have hrow := summap_set_add (fun row => row.countP fun c => (charPiece c).isSome)
    m.data y.row ((m.data.getD y.row []).set y.col ch) [] hin.1
  have hcell := countP_set_add (fun c => (charPiece c).isSome)
    (m.data.getD y.row []) y.col ch ' ' hin.2
  simp only [] at hrow hcell
  have hold : (charPiece ((m.data.getD y.row []).getD y.col ' ')).isSome = false := by
    have he : Position.piece m y = charPiece ((m.data.getD y.row []).getD y.col ' ') := rfl
    rw [← he, hemp]
    rfl
  simp only [hold, hch, eq_self_iff_true, if_true, Bool.false_eq_true, if_false] at hcell
  show ((m.data.set y.row ((m.data.getD y.row []).set y.col ch)).map
    fun row => row.countP fun c => (charPiece c).isSome).sum
    = (m.data.map fun row => row.countP fun c => (charPiece c).isSome).sum + 1
  omega

theorem countOcc_flipCell (m : Grid) (y : Coordinates) : countOcc (flipCell m y) = countOcc m := by
  rw [flipCell]
  cases hy : Position.piece m y with
  | none => rfl
  | some q =>
    exact countOcc_write_occ hy (by cases q <;> rfl)

theorem countOcc_foldl_flipCell : ∀ (L : List Coordinates) (m : Grid),
    countOcc (L.foldl flipCell m) = countOcc m := by
  intro L
  induction L with
  | nil => intro m; rfl
  | cons a t ih =>
    intro m
    rw [List.foldl_cons, ih (flipCell m a), countOcc_flipCell]

theorem foldl_flipCell_size : ∀ (L : List Coordinates) (m : Grid),
    (L.foldl flipCell m).size = m.size := by
  intro L
  induction L with
  | nil => intro m; rfl
  | cons a t ih =>
    intro m
    rw [List.foldl_cons, ih (flipCell m a), flipCell_size]

theorem foldl_flipCell_piece_ne : ∀ (L : List Coordinates) (m : Grid) (x : Coordinates),
    x ∉ L → Position.piece (L.foldl flipCell m) x = Position.piece m x := by
  intro L
  induction L with
  | nil => intro m x _; rfl
  | cons a t ih =>
    intro m x hx
    rw [List.foldl_cons, ih (flipCell m a) x (fun hmem => hx (by simp [hmem])),
      flipCell_piece_ne (fun e => hx (by simp [e]))]

theorem foldl_flipCell_isSome : ∀ (L : List Coordinates) (m : Grid) (x : Coordinates),
    (Position.piece (L.foldl flipCell m) x).isSome = (Position.piece m x).isSome := by
  intro L
  induction L with
  | nil => intro m x; rfl
  | cons a t ih =>
    intro m x
    rw [List.foldl_cons, ih (flipCell m a) x, flipCell_piece_isSome]

theorem solveDir_size (m : Grid) (c : Coordinates) (p : Piece) (d : Direction) :
    (solveDir m c p d).size = m.size := by
  rw [solveDir]
  split
  · exact foldl_flipCell_size _ m
  · rfl

theorem solveDir_piece_offRay {m : Grid} {c x : Coordinates} {p : Piece} {d : Direction}
    (hx : ¬ onRay c d x) : Position.piece (solveDir m c p d) x = Position.piece m x := by
  rw [solveDir]
  split
  · exact foldl_flipCell_piece_ne _ m x
      (fun hmem => hx (ray_mem_onRay (mem_turnnables hmem).1))
  · rfl

theorem solveDir_isSome (m : Grid) (c : Coordinates) (p : Piece) (d : Direction)
    (x : Coordinates) :
    (Position.piece (solveDir m c p d) x).isSome = (Position.piece m x).isSome := by
  rw [solveDir]
  split
  · exact foldl_flipCell_isSome _ m x
  · rfl

theorem countOcc_solveDir (m : Grid) (c : Coordinates) (p : Piece) (d : Direction) :
    countOcc (solveDir m c p d) = countOcc m := by
  rw [solveDir]
  split
  · exact countOcc_foldl_flipCell _ m
  · rfl

theorem turnnables_congr {m2 m : Grid} {c : Coordinates} {p : Piece} {d : Direction}
    (hsz : m2.size = m.size)
    (hagree : ∀ x, onRay c d x → Position.piece m2 x = Position.piece m x) :
    turnnables m2 c p d = turnnables m c p d := by
  rw [turnnables, turnnables, ray_congr hsz]
  exact takeWhile_congr' _ _ _ fun x hx => by rw [hagree x (ray_mem_onRay hx)]

theorem turnnables_last_walk {m : Grid} {c last : Coordinates} {p : Piece} {d : Direction}
    (hlast : (turnnables m c p d).getLast? = some last) :
    posWalk m last d 1 = posWalk m c d ((turnnables m c p d).length + 1) := by
  have hne : turnnables m c p d ≠ [] := by
    intro he
    rw [he] at hlast
    cases hlast
  have hget : (turnnables m c p d).get? ((turnnables m c p d).length - 1) = some last := by
    rw [← List.getLast?_eq_get?]
    exact hlast
  have hray : (ray m c d).get? ((turnnables m c p d).length - 1) = some last :=
    takeWhile_get? _ (ray m c d) _ last hget
  have hwalk := rayFrom_get? m.size 1 ((turnnables m c p d).length - 1) last hray
  have hlen : 1 ≤ (turnnables m c p d).length := by
    cases hl : turnnables m c p d with
    | nil => exact absurd hl hne
    | cons a t => simp [hl]
  rw [show 1 + ((turnnables m c p d).length - 1) = (turnnables m c p d).length by omega] at hwalk
  exact posWalk_succ hwalk

theorem turnFlag_congr {m2 m : Grid} {c : Coordinates} {p : Piece} {d : Direction}
    (hsz : m2.size = m.size)
    (hagree : ∀ x, onRay c d x → Position.piece m2 x = Position.piece m x) :
    turnFlag m2 c p d = turnFlag m c p d := by
  rw [turnFlag, turnFlag, turnnables_congr hsz hagree]
  cases hlast : (turnnables m c p d).getLast? with
  | none => rfl
  | some last =>
    dsimp only [Option.bind]
    rw [posWalk_congr hsz last d 1, turnnables_last_walk hlast]
    cases hq : posWalk m c d ((turnnables m c p d).length + 1) with
    | none => rfl
    | some q =>
      dsimp only [Option.map, Option.getD]
      have hon : onRay c d q :=
        ⟨(turnnables m c p d).length + 1, by omega, (posWalk_some hq).1⟩
      rw [hagree q hon]

theorem solveDir_snap_step {m2 m : Grid} {c : Coordinates} {p : Piece} {d : Direction}
    (hsz : m2.size = m.size)
    (hagree : ∀ x, onRay c d x → Position.piece m2 x = Position.piece m x) :
    solveDir m2 c p d
      = if turnFlag m c p d then writeAll (turnnables m c p d) p m2 else m2 := by
  rw [solveDir, turnFlag_congr hsz hagree, turnnables_congr hsz hagree]
  split
  · exact foldl_flipCell_eq_writeAll p _ m2 (turnnables_nodup m c p d)
      fun x hx => (hagree x (ray_mem_onRay (mem_turnnables hx).1)).trans (mem_turnnables hx).2
  · rfl

theorem writeAll_write_comm (p : Piece) : ∀ (L : List Coordinates) (acc : Grid)
    (y : Coordinates) (ch : Char), y ∉ L →
    writeAll L p (acc.write y ch) = (writeAll L p acc).write y ch := by
  intro L
  induction L with
  | nil => intro acc y ch _; rfl
  | cons a t ih =>
    intro acc y ch hy
    rw [writeAll, List.foldl_cons, Grid.write_comm (fun e => hy (by simp [e]))]
    exact ih (acc.write a p.toChar) y ch fun hmem => hy (by simp [hmem])

theorem writeAll_comm (p : Piece) : ∀ (L1 L2 : List Coordinates) (acc : Grid),
    (∀ x ∈ L1, x ∉ L2) →
    writeAll L2 p (writeAll L1 p acc) = writeAll L1 p (writeAll L2 p acc) := by
  intro L1
  induction L1 with
  | nil => intro L2 acc _; rfl
  | cons a t ih =>
    intro L2 acc hdisj
    have h1 : writeAll (a :: t) p acc = writeAll t p (acc.write a p.toChar) := rfl
    rw [h1, ih L2 (acc.write a p.toChar) (fun x hx => hdisj x (by simp [hx])),
      writeAll_write_comm p L2 acc a p.toChar (hdisj a (by simp))]
    rfl

theorem turnnables_subset_onRay {m : Grid} {c x : Coordinates} {p : Piece} {d : Direction}
    (hx : x ∈ turnnables m c p d) : onRay c d x :=
  ray_mem_onRay (mem_turnnables hx).1

theorem solveDirSnap_comm (m : Grid) (c : Coordinates) (p : Piece) :
    ∀ (acc : Grid) (d1 d2 : Direction),
      solveDirSnap m (solveDirSnap m acc c p d1) c p d2
        = solveDirSnap m (solveDirSnap m acc c p d2) c p d1 := by
  intro acc d1 d2
  by_cases hd : d1 = d2
  · rw [hd]
  · rw [solveDirSnap, solveDirSnap, solveDirSnap, solveDirSnap]
    split <;> split
    · exact writeAll_comm p _ _ acc fun x hx hx2 =>
        onRay_disjoint hd (turnnables_subset_onRay hx) (turnnables_subset_onRay hx2)
    · rfl
    · rfl
    · rfl

theorem solveDirSnap_size (m acc : Grid) (c : Coordinates) (p : Piece) (d : Direction) :
    (solveDirSnap m acc c p d).size = acc.size := by
  rw [solveDirSnap]
  split
  · exact writeAll_size _ p acc
  · rfl

theorem solveDirSnap_piece_off {m acc : Grid} {c x : Coordinates} {p : Piece} {d : Direction}
    (hx : ¬ onRay c d x) :
    Position.piece (solveDirSnap m acc c p d) x = Position.piece acc x := by
  rw [solveDirSnap]
  split
  · exact writeAll_piece_notMem _ p acc x fun hmem => hx (turnnables_subset_onRay hmem)
  · rfl

theorem solveSeq_eq_snapFold (m : Grid) (c : Coordinates) (p : Piece) :
    ∀ (ds : List Direction), ds.Nodup → ∀ (macc : Grid),
      macc.size = m.size →
      (∀ x, (∃ d ∈ ds, onRay c d x) → Position.piece macc x = Position.piece m x) →
      ds.foldl (fun acc d => solveDir acc c p d) macc
        = ds.foldl (fun acc d => solveDirSnap m acc c p d) macc := by
  intro ds
  induction ds with
  | nil => intro _ macc _ _; rfl
  | cons d t ih =>
    intro hnd macc hsz hagree
    rw [List.nodup_cons] at hnd
    rw [List.foldl_cons, List.foldl_cons]
    have hstep : solveDir macc c p d = solveDirSnap m macc c p d := by
      rw [solveDirSnap]
      exact solveDir_snap_step hsz fun x hx => hagree x ⟨d, by simp, hx⟩
    rw [hstep]
    refine ih hnd.2 (solveDirSnap m macc c p d) ((solveDirSnap_size m macc c p d).trans hsz) ?_
    intro x hx
    obtain ⟨d2, hd2, hon⟩ := hx
    have hd2d : d2 ≠ d := fun e => hnd.1 (e ▸ hd2)
    have hoff : ¬ onRay c d x := fun hon2 => onRay_disjoint hd2d hon hon2
    rw [solveDirSnap_piece_off hoff]
    exact hagree x ⟨d2, by simp [hd2], hon⟩

/-- C2: within one place call, the sequential direction-by-direction capture
resolution of `Position::solve` (each direction's flips performed before the
next direction is scanned) computes exactly the snapshot semantics in which
all eight scans read the pre-move grid, and the outcome is the same for
every processing order of the eight directions. -/
theorem solve_snapshot_equiv (m : Grid) (c : Coordinates) (p : Piece)
    (ds : List Direction) (hperm : ds.Perm allDirections) :
    ds.foldl (fun acc d => solveDir acc c p d) m
        = allDirections.foldl (fun acc d => solveDirSnap m acc c p d) m ∧
      solve m c p = allDirections.foldl (fun acc d => solveDirSnap m acc c p d) m := by
  have hall_nodup : allDirections.Nodup := by decide
  have hds_nodup : ds.Nodup := hperm.symm.nodup hall_nodup
  have hsnap : ∀ (es : List Direction), es.Nodup →
      es.foldl (fun acc d => solveDir acc c p d) m
        = es.foldl (fun acc d => solveDirSnap m acc c p d) m :=
    fun es hnd => solveSeq_eq_snapFold m c p es hnd m rfl fun x _ => rfl
  have hperm_fold : ds.foldl (fun acc d => solveDirSnap m acc c p d) m
      = allDirections.foldl (fun acc d => solveDirSnap m acc c p d) m :=
    hperm.foldl_eq' (fun d1 _ d2 _ acc => solveDirSnap_comm m c p acc d1 d2) m
  exact ⟨(hsnap ds hds_nodup).trans hperm_fold, hsnap allDirections hall_nodup⟩

/-- Witness for C2 on a concrete 2-by-2 grid with the eight directions
processed in reversed order. -/
theorem solve_snapshot_equiv_witness :
    (allDirections.reverse).Perm allDirections ∧
      (allDirections.reverse.foldl
          (fun acc d => solveDir acc ⟨0, 0⟩ Piece.Red d) ⟨2, [[' ', 'B'], ['R', ' ']]⟩
          = allDirections.foldl
            (fun acc d => solveDirSnap ⟨2, [[' ', 'B'], ['R', ' ']]⟩ acc ⟨0, 0⟩ Piece.Red d)
            ⟨2, [[' ', 'B'], ['R', ' ']]⟩ ∧
        solve ⟨2, [[' ', 'B'], ['R', ' ']]⟩ ⟨0, 0⟩ Piece.Red
          = allDirections.foldl
            (fun acc d => solveDirSnap ⟨2, [[' ', 'B'], ['R', ' ']]⟩ acc ⟨0, 0⟩ Piece.Red d)
            ⟨2, [[' ', 'B'], ['R', ' ']]⟩) :=
  ⟨List.reverse_perm allDirections,
    solve_snapshot_equiv ⟨2, [[' ', 'B'], ['R', ' ']]⟩ ⟨0, 0⟩ Piece.Red
      allDirections.reverse (List.reverse_perm allDirections)⟩

theorem mem_allDirections (d : Direction) : d ∈ allDirections := by
  cases d <;> decide

theorem WF_inRange {m : Grid} {c : Coordinates} (hWF : m.WF) (hr : c.row < m.size)
    (hc : c.col < m.size) : m.inRange c := by
  obtain ⟨hlen, hrows⟩ := hWF
  have h1 : c.row < m.data.length := by omega
  refine ⟨h1, ?_⟩
  have hget : m.data.get? c.row = some (m.data.get ⟨c.row, h1⟩) := List.get?_eq_get h1
  have hmem : m.data.get ⟨c.row, h1⟩ ∈ m.data := List.get_mem m.data _ h1
  have : m.data.getD c.row [] = m.data.get ⟨c.row, h1⟩ := by
    show (m.data.get? c.row).getD [] = _
    rw [hget]
    rfl
  rw [this, hrows _ hmem]
  omega

theorem posWalk_none_of_ge {m : Grid} {c : Coordinates} {d : Direction} {k : Nat}
    (hr : c.row < m.size) (hc : c.col < m.size) (hk : m.size ≤ k) :
    posWalk m c d k = none := by
  cases hcw : coordsWalk c d k with
  | none => simp [posWalk, hcw]
  | some y =>
    have hints := coordsWalk_int hcw
    have hguard : ¬ (coordsWalk c d k = none) := by rw [hcw]; simp
    rw [coordsWalk_none_iff] at hguard
    simp only [posWalk, hcw]
    split
    · rename_i hb
      exfalso
      cases d <;> dsimp only [dirRowDelta, dirColDelta] at hints <;>
        simp only [not_lt, not_or] at hguard <;> omega
    · rfl

theorem rayFrom_length_le {m : Grid} {c : Coordinates} {d : Direction} :
    ∀ fuel k0, (rayFrom m c d fuel k0).length ≤ fuel := by
  intro fuel
  induction fuel with
  | zero => intro k0; simp [rayFrom]
  | succ fuel ih =>
    intro k0
    rw [rayFrom]
    cases posWalk m c d k0 with
    | none => simp
    | some y =>
      have := ih (k0 + 1)
      simp only [List.length_cons]
      omega

theorem rayFrom_stop {m : Grid} {c : Coordinates} {d : Direction} :
    ∀ fuel k0, (rayFrom m c d fuel k0).length < fuel →
      posWalk m c d (k0 + (rayFrom m c d fuel k0).length) = none := by
  intro fuel
  induction fuel with
  | zero => intro k0 h; simp at h
  | succ fuel ih =>
    intro k0 h
    rw [rayFrom] at h ⊢
    cases hpw : posWalk m c d k0 with
    | none => simpa using hpw
    | some y =>
      rw [hpw] at h
      simp only [List.length_cons] at h ⊢
      have := ih (k0 + 1) (by omega)
      rw [show k0 + ((rayFrom m c d fuel (k0 + 1)).length + 1)
        = k0 + 1 + (rayFrom m c d fuel (k0 + 1)).length by omega]
      exact this

theorem takeWhile_next_false {α : Type} (q : α → Bool) :
    ∀ (l : List α) (z : α), (l.takeWhile q).length < l.length →
      l.get? (l.takeWhile q).length = some z → q z = false := by
  intro l
  induction l with
  | nil => intro z h; simp at h
  | cons a t ih =>
    intro z h hz
    cases hq : q a with
    | true =>
      rw [List.takeWhile_cons, hq] at h hz
      simp only [eq_self_iff_true, if_true, List.length_cons] at h hz
      exact ih z (by omega) (by simpa using hz)
    | false =>
      rw [List.takeWhile_cons, hq] at hz
      simp only [Bool.false_eq_true, if_false, List.length_nil, List.get?_cons_zero,
        Option.some.injEq] at hz
      rw [← hz]
      exact hq

theorem run_next_not_opp {m : Grid} {c y : Coordinates} {p : Piece} {d : Direction}
    (hr : c.row < m.size) (hc : c.col < m.size)
    (hy : posWalk m c d ((turnnables m c p d).length + 1) = some y) :
    Position.piece m y ≠ some p.not := by
  have hTsub : (turnnables m c p d).length ≤ (ray m c d).length :=
    (List.takeWhile_sublist _).length_le
  by_cases hlt : (turnnables m c p d).length < (ray m c d).length
  · have hzex : ∃ z, (ray m c d).get? (turnnables m c p d).length = some z := by
      rw [List.get?_eq_get hlt]
      exact ⟨_, rfl⟩
    obtain ⟨z, hz⟩ := hzex
    have hwz := rayFrom_get? m.size 1 (turnnables m c p d).length z hz
    rw [show 1 + (turnnables m c p d).length = (turnnables m c p d).length + 1 by omega] at hwz
    have hyz : z = y := by
      rw [hwz] at hy
      exact (Option.some.injEq _ _).mp hy
    subst hyz
    have hfalse := takeWhile_next_false _ (ray m c d) z hlt hz
    intro hcontra
    rw [hcontra] at hfalse
    simp at hfalse
  · have hTlen : (turnnables m c p d).length = (ray m c d).length := by omega
    have hraylen : (ray m c d).length ≤ m.size := rayFrom_length_le m.size 1
    by_cases hfull : (ray m c d).length = m.size
    · have : posWalk m c d ((turnnables m c p d).length + 1) = none := by
        apply posWalk_none_of_ge hr hc
        omega
      rw [this] at hy
      cases hy
    · have hlt2 : (ray m c d).length < m.size := by omega
      have hstop : posWalk m c d (1 + (ray m c d).length) = none :=
        rayFrom_stop m.size 1 hlt2
      have : posWalk m c d ((turnnables m c p d).length + 1) = none := by
        rw [hTlen, show (ray m c d).length + 1 = 1 + (ray m c d).length by omega]
        exact hstop
      rw [this] at hy
      cases hy

theorem turnFlag_iff_anchored (m : Grid) (c : Coordinates) (p : Piece) (d : Direction) :
    turnFlag m c p d = true ↔ anchoredRun m c p d := by
  rw [turnFlag, anchoredRun]
  cases hlast : (turnnables m c p d).getLast? with
  | none =>
    have hnil : turnnables m c p d = [] := List.getLast?_eq_none_iff.mp hlast
    simp [hnil]
  | some last =>
    have hne : turnnables m c p d ≠ [] := by
      intro he
      rw [he] at hlast
      cases hlast
    dsimp only [Option.bind]
    rw [turnnables_last_walk hlast]
    cases hq : posWalk m c d ((turnnables m c p d).length + 1) with
    | none => simp [hne]
    | some a =>
      dsimp only [Option.map, Option.getD]
      simp only [beq_iff_eq, iff_true_intro hne, true_and]
      constructor
      · intro h
        exact ⟨a, rfl, h⟩
      · rintro ⟨b, hb, hpb⟩
        cases hb
        exact hpb

theorem solveDirSnap_inRange (m acc : Grid) (c : Coordinates) (p : Piece) (d : Direction)
    (y : Coordinates) : (solveDirSnap m acc c p d).inRange y ↔ acc.inRange y := by
  rw [solveDirSnap]
  split
  · exact writeAll_inRange _ p acc y
  · exact Iff.rfl

theorem snapFold_piece_off {m : Grid} {c x : Coordinates} {p : Piece} :
    ∀ (ds : List Direction) (macc : Grid), (∀ dd ∈ ds, ¬ onRay c dd x) →
      Position.piece (ds.foldl (fun acc dd => solveDirSnap m acc c p dd) macc) x
        = Position.piece macc x := by
  intro ds
  induction ds with
  | nil => intro macc _; rfl
  | cons d0 t ih =>
    intro macc hoff
    rw [List.foldl_cons, ih (solveDirSnap m macc c p d0) fun dd hdd => hoff dd (by simp [hdd]),
      solveDirSnap_piece_off (hoff d0 (by simp))]

theorem snapFold_piece_not {m : Grid} {c x : Coordinates} {p : Piece} :
    ∀ (ds : List Direction) (macc : Grid),
      (∀ dd ∈ ds, turnFlag m c p dd = false ∨ x ∉ turnnables m c p dd) →
      Position.piece (ds.foldl (fun acc dd => solveDirSnap m acc c p dd) macc) x
        = Position.piece macc x := by
  intro ds
  induction ds with
  | nil => intro macc _; rfl
  | cons d0 t ih =>
    intro macc hno
    rw [List.foldl_cons, ih (solveDirSnap m macc c p d0) fun dd hdd => hno dd (by simp [hdd])]
    rcases hno d0 (by simp) with h | h
    · rw [solveDirSnap, h]
      simp
    · rw [solveDirSnap]
      split
      · exact writeAll_piece_notMem _ p macc x h
      · rfl

theorem snapFold_piece_mem {m : Grid} {c x : Coordinates} {p : Piece} {d : Direction} :
    ∀ (ds : List Direction) (macc : Grid), ds.Nodup → d ∈ ds →
      turnFlag m c p d = true → x ∈ turnnables m c p d → macc.inRange x →
      Position.piece (ds.foldl (fun acc dd => solveDirSnap m acc c p dd) macc) x
        = some p := by
  intro ds
  induction ds with
  | nil => intro macc _ hd; simp at hd
  | cons d0 t ih =>
    intro macc hnd hd hflag hmem hin
    rw [List.nodup_cons] at hnd
    rw [List.foldl_cons]
    rcases List.mem_cons.mp hd with h | h
    · subst h
      have hstep : Position.piece (solveDirSnap m macc c p d) x = some p := by
        rw [solveDirSnap, hflag, if_pos rfl]
        exact writeAll_piece_mem _ p macc x (turnnables_nodup m c p d) hmem hin
      rw [snapFold_piece_not t (solveDirSnap m macc c p d) ?_, hstep]
      intro dd hdd
      right
      intro hmem2
      have hdne : dd ≠ d := fun e => hnd.1 (by subst e; exact hdd)
      exact onRay_disjoint hdne (turnnables_subset_onRay hmem2)
        (turnnables_subset_onRay hmem)
    · have hd0d : d0 ≠ d := fun e => hnd.1 (e ▸ h)
      have hoff : Position.piece (solveDirSnap m macc c p d0) x = Position.piece macc x :=
        solveDirSnap_piece_off fun hon =>
          onRay_disjoint hd0d hon (turnnables_subset_onRay hmem)
      exact ih (solveDirSnap m macc c p d0) hnd.2 h hflag hmem
        ((solveDirSnap_inRange m macc c p d0 x).mpr hin)

theorem snapFold_inRange {m : Grid} {c : Coordinates} {p : Piece} :
    ∀ (ds : List Direction) (macc : Grid) (y : Coordinates),
      (ds.foldl (fun acc dd => solveDirSnap m acc c p dd) macc).inRange y ↔ macc.inRange y := by
  intro ds
  induction ds with
  | nil => intro macc y; exact Iff.rfl
  | cons d0 t ih =>
    intro macc y
    rw [List.foldl_cons]
    exact (ih (solveDirSnap m macc c p d0) y).trans (solveDirSnap_inRange m macc c p d0 y)

/-- C1: on a well-formed grid, placing a piece on an empty in-bounds target
succeeds and, for each of the 8 directions, flips exactly the maximal run of
consecutive on-board opposite-color cells when and only when that run is
non-empty and anchored by the placed color immediately beyond it; an empty
or unanchored run causes no flips in its direction, and the piece is written
to the target. -/
theorem place_capture_spec (m : Grid) (c : Coordinates) (p : Piece)
    (hWF : m.WF) (hr : c.row < m.size) (hc : c.col < m.size)
    (hemp : Position.piece m c = none) : placeCaptureProp m c p := by
  have hplace1 : (Position.piece m c).isSome = false := by rw [hemp]; rfl
  have hres : place m c p = (none, (solve m c p).write c p.toChar) := by
    rw [place, hplace1]
    simp
  have hsolve : solve m c p = allDirections.foldl (fun acc dd => solveDirSnap m acc c p dd) m :=
    solveSeq_eq_snapFold m c p allDirections (by decide) m rfl fun x _ => rfl
  refine ⟨by rw [hres], ?_, ?_, ?_, ?_, ?_, ?_⟩
  · rw [hres]
    dsimp only
    rw [hsolve]
    have hin : m.inRange c := WF_inRange hWF hr hc
    have hinS := (snapFold_inRange (m := m) (c := c) (p := p) allDirections m c).mpr hin
    rw [piece_write_self hinS, charPiece_toChar]
  · intro d i x hget
    constructor
    · have hray := takeWhile_get? _ (ray m c d) i x hget
      have := rayFrom_get? m.size 1 i x hray
      rwa [show 1 + i = i + 1 by omega] at this
    · exact (mem_turnnables (List.get?_mem hget)).2
  · intro d y hy
    exact run_next_not_opp hr hc hy
  · intro d hanch x hx
    have hflag : turnFlag m c p d = true := (turnFlag_iff_anchored m c p d).mpr hanch
    have hxc : x ≠ c := onRay_ne_origin (turnnables_subset_onRay hx)
    rw [hres]
    dsimp only
    rw [piece_write_ne hxc, hsolve]
    exact snapFold_piece_mem allDirections m (by decide) (mem_allDirections d) hflag hx
      (piece_some_inRange (mem_turnnables hx).2)
  · intro d hanch x hx
    have hflag : turnFlag m c p d = false := by
      cases hf : turnFlag m c p d
      · rfl
      · exact absurd ((turnFlag_iff_anchored m c p d).mp hf) hanch
    have hxc : x ≠ c := onRay_ne_origin (turnnables_subset_onRay hx)
    rw [hres]
    dsimp only
    rw [piece_write_ne hxc, hsolve]
    apply snapFold_piece_not
    intro dd hdd
    by_cases hdde : dd = d
    · subst hdde
      left
      exact hflag
    · right
      intro hmem2
      exact onRay_disjoint hdde (turnnables_subset_onRay hmem2) (turnnables_subset_onRay hx)
  · intro d x hxray hxnot
    have hxc : x ≠ c := onRay_ne_origin (ray_mem_onRay hxray)
    rw [hres]
    dsimp only
    rw [piece_write_ne hxc, hsolve]
    apply snapFold_piece_not
    intro dd hdd
    right
    by_cases hdde : dd = d
    · subst hdde
      exact hxnot
    · intro hmem2
      exact onRay_disjoint hdde (turnnables_subset_onRay hmem2) (ray_mem_onRay hxray)

/-- Witness for C1: Red placed at (1,0) on a 4-by-4 grid whose row 1 is
`" BR "` captures the Blue at (1,1) anchored by the Red at (1,2). -/
theorem place_capture_spec_witness :
    (Grid.mk 4 [[' ', ' ', ' ', ' '], [' ', 'B', 'R', ' '],
      [' ', ' ', ' ', ' '], [' ', ' ', ' ', ' ']]).WF ∧
      (1 : Nat) < 4 ∧ (0 : Nat) < 4 ∧
      Position.piece (Grid.mk 4 [[' ', ' ', ' ', ' '], [' ', 'B', 'R', ' '],
        [' ', ' ', ' ', ' '], [' ', ' ', ' ', ' ']]) ⟨1, 0⟩ = none ∧
      placeCaptureProp (Grid.mk 4 [[' ', ' ', ' ', ' '], [' ', 'B', 'R', ' '],
        [' ', ' ', ' ', ' '], [' ', ' ', ' ', ' ']]) ⟨1, 0⟩ Piece.Red :=
  ⟨by decide, by decide, by decide, by decide,
    place_capture_spec _ ⟨1, 0⟩ Piece.Red (by decide) (by decide) (by decide) (by decide)⟩

theorem Board.new_ok_WF (n : Nat) : ∃ b : Grid, Board.new n = Except.ok b ∧
    b.size = n ∧ b.WF := by
  refine ⟨_, rfl, rfl, ?_, ?_⟩
  · simp
  · intro row hrow
    simp only [List.mem_map, List.mem_range] at hrow
    obtain ⟨r, _, hr⟩ := hrow
    rw [← hr]
    simp

/-- C3 is violated by the code (code bug): `Board::new` performs no size
validation at all.  It returns Ok for every size — including 0, 3, 4, 5 and
13, which the claim (and spec sections 4.3 and 8) say must fail with
InvalidBoardSize — and `BoardError` has no InvalidBoardSize variant to fail
with.  The fallible `Result` return type of `Board::new` and the
`Board::new(board_size)?` caller in game.rs show fallible construction was
intended. -/
theorem Board.new_no_size_validation :
    (∀ n : Nat, ∃ b : Grid, Board.new n = Except.ok b ∧ b.size = n ∧ b.WF) ∧
      (Board.new 0).toOption.isSome = true ∧ (Board.new 3).toOption.isSome = true ∧
      (Board.new 4).toOption.isSome = true ∧ (Board.new 5).toOption.isSome = true ∧
      (Board.new 13).toOption.isSome = true ∧ (Board.new 6).toOption.isSome = true ∧
      (Board.new 8).toOption.isSome = true ∧ (Board.new 16).toOption.isSome = true :=
  ⟨Board.new_ok_WF, rfl, rfl, rfl, rfl, rfl, rfl, rfl, rfl⟩

/-- C4: `Position::place` fails with PositionAlreadyOccupied exactly when the
target cell is not empty, and on that failure the grid is returned
completely unchanged (the occupancy check precedes every mutation); on an
empty target the call always succeeds, even when no direction captures. -/
theorem place_occupied_iff (m : Grid) (c : Coordinates) (p : Piece) :
    ((place m c p).1 = some PositionError.PositionAlreadyOccupied ↔
        (Position.piece m c).isSome = true) ∧
      ((Position.piece m c).isSome = true →
        place m c p = (some PositionError.PositionAlreadyOccupied, m)) ∧
      (Position.piece m c = none → (place m c p).1 = none) := by
  cases hp : (Position.piece m c).isSome with
  | false =>
    have hno : ¬ ((Position.piece m c).isSome = true) := by rw [hp]; simp
    rw [place, if_neg hno]
    refine ⟨by simp, fun h => absurd h (by decide), fun _ => rfl⟩
  | true =>
    rw [place, if_pos hp]
    refine ⟨by simp, fun _ => rfl, fun he => ?_⟩
    rw [he] at hp
    simp at hp

/-- Witness for C4: placing on the occupied cell (1,1) of a concrete grid
fails with PositionAlreadyOccupied and leaves the grid unchanged. -/
theorem place_occupied_iff_witness :
    (Position.piece (Grid.mk 4 [[' ', ' ', ' ', ' '], [' ', 'B', 'R', ' '],
        [' ', ' ', ' ', ' '], [' ', ' ', ' ', ' ']]) ⟨1, 1⟩).isSome = true ∧
      place (Grid.mk 4 [[' ', ' ', ' ', ' '], [' ', 'B', 'R', ' '],
          [' ', ' ', ' ', ' '], [' ', ' ', ' ', ' ']]) ⟨1, 1⟩ Piece.Red
        = (some PositionError.PositionAlreadyOccupied,
            Grid.mk 4 [[' ', ' ', ' ', ' '], [' ', 'B', 'R', ' '],
              [' ', ' ', ' ', ' '], [' ', ' ', ' ', ' ']]) :=
  ⟨by decide,
    (place_occupied_iff (Grid.mk 4 [[' ', ' ', ' ', ' '], [' ', 'B', 'R', ' '],
      [' ', ' ', ' ', ' '], [' ', ' ', ' ', ' ']]) ⟨1, 1⟩ Piece.Red).2.1 (by decide)⟩

/-- C9: `Board::get` fails with InvalidPosition exactly when a coordinate
axis reaches the grid size; views produced by a successful get or by a
`PositionWalker` step carry in-bounds coordinates, and on a well-formed
grid every such coordinate addresses an existing entry of the raw
`Vec<Vec<char>>`, so the unvalidated reads and writes of the cell-view
operations never index out of range. -/
theorem Board.get_bounds_safety (m : Grid) (hWF : m.WF) : boundsSafetyProp m := by
  refine ⟨?_, ?_, ?_, ?_⟩
  · intro c
    rw [Board.get]
    split
    · rename_i hb
      constructor
      · intro h
        cases h
      · intro h
        omega
    · rename_i hb
      rw [not_and_or] at hb
      simp only [iff_true_intro rfl, true_iff]
      omega
  · intro c c2 h
    rw [Board.get] at h
    split at h
    · rename_i hb
      cases h
      exact ⟨rfl, hb.1, hb.2⟩
    · cases h
  · intro c x d k h
    exact ⟨(posWalk_some h).2.1, (posWalk_some h).2.2⟩
  · intro c hr hc
    have hin := WF_inRange hWF hr hc
    rw [Grid.readChecked]
    have hg1 : m.data.get? c.row = some (m.data.get ⟨c.row, hin.1⟩) := List.get?_eq_get hin.1
    rw [hg1]
    simp only [Option.bind]
    have hg2 : m.data.getD c.row [] = m.data.get ⟨c.row, hin.1⟩ := by
      show (m.data.get? c.row).getD [] = _
      rw [hg1]
      rfl
    have hlt : c.col < (m.data.get ⟨c.row, hin.1⟩).length := by
      rw [← hg2]
      exact hin.2
    rw [List.get?_eq_get hlt]
    rfl

/-- Witness for C9 on a concrete well-formed 4-by-4 grid. -/
theorem Board.get_bounds_safety_witness :
    (Grid.mk 4 [[' ', ' ', ' ', ' '], [' ', 'B', 'R', ' '],
        [' ', ' ', ' ', ' '], [' ', ' ', ' ', ' ']]).WF ∧
      boundsSafetyProp (Grid.mk 4 [[' ', ' ', ' ', ' '], [' ', 'B', 'R', ' '],
        [' ', ' ', ' ', ' '], [' ', ' ', ' ', ' ']]) :=
  ⟨by decide, Board.get_bounds_safety _ (by decide)⟩

theorem seqFold_isSome {c : Coordinates} {p : Piece} :
    ∀ (ds : List Direction) (macc : Grid) (x : Coordinates),
      (Position.piece (ds.foldl (fun a d => solveDir a c p d) macc) x).isSome
        = (Position.piece macc x).isSome := by
  intro ds
  induction ds with
  | nil => intro macc x; rfl
  | cons d0 t ih =>
    intro macc x
    rw [List.foldl_cons, ih (solveDir macc c p d0) x, solveDir_isSome]

theorem seqFold_count {c : Coordinates} {p : Piece} :
    ∀ (ds : List Direction) (macc : Grid),
      countOcc (ds.foldl (fun a d => solveDir a c p d) macc) = countOcc macc := by
  intro ds
  induction ds with
  | nil => intro macc; rfl
  | cons d0 t ih =>
    intro macc
    rw [List.foldl_cons, ih (solveDir macc c p d0), countOcc_solveDir]

theorem solve_isSome (m : Grid) (c : Coordinates) (p : Piece) (x : Coordinates) :
    (Position.piece (solve m c p) x).isSome = (Position.piece m x).isSome :=
  seqFold_isSome allDirections m x

theorem solve_count (m : Grid) (c : Coordinates) (p : Piece) :
    countOcc (solve m c p) = countOcc m :=
  seqFold_count allDirections m

theorem solve_piece_origin (m : Grid) (c : Coordinates) (p : Piece) :
    Position.piece (solve m c p) c = Position.piece m c := by
  have hsolve : solve m c p
      = allDirections.foldl (fun acc dd => solveDirSnap m acc c p dd) m :=
    solveSeq_eq_snapFold m c p allDirections (by decide) m rfl fun x _ => rfl
  rw [hsolve]
  exact snapFold_piece_off allDirections m fun dd _ hon => (onRay_ne_origin hon) rfl

theorem solve_inRange (m : Grid) (c : Coordinates) (p : Piece) (y : Coordinates) :
    (solve m c p).inRange y ↔ m.inRange y := by
  have hsolve : solve m c p
      = allDirections.foldl (fun acc dd => solveDirSnap m acc c p dd) m :=
    solveSeq_eq_snapFold m c p allDirections (by decide) m rfl fun x _ => rfl
  rw [hsolve]
  exact snapFold_inRange allDirections m y

/-- C10: no core operation turns an Occupied cell back to Empty.  A
standalone flip of an occupied cell keeps it occupied with the opposite
color and leaves the occupied count unchanged; capture resolution preserves
the occupancy of every cell; and a successful place turns exactly the one
Empty target cell Occupied, raising the occupied count by exactly one. -/
theorem occupancy_invariants (m : Grid) (c cf : Coordinates) (p : Piece) :
    (∀ q, Position.piece m cf = some q → flipSpecProp m cf q) ∧
      (∀ x, (Position.piece (solve m c p) x).isSome = (Position.piece m x).isSome) ∧
      (m.WF → c.row < m.size → c.col < m.size → Position.piece m c = none →
        placeCountProp m c p) := by
  refine ⟨?_, fun x => solve_isSome m c p x, ?_⟩
  · intro q hq
    have hres : flipOp m cf = (none, m.write cf q.not.toChar) := by
      simp [flipOp, hq]
    have hin : m.inRange cf := piece_some_inRange hq
    refine ⟨hres, ?_, ?_, ?_⟩
    · rw [hres]
      dsimp only
      rw [piece_write_self hin, charPiece_toChar]
    · intro x hx
      rw [hres]
      dsimp only
      exact piece_write_ne hx
    · rw [hres]
      dsimp only
      exact countOcc_write_occ hq (by cases q <;> rfl)
  · intro hWF hr hc hemp
    have hplace1 : (Position.piece m c).isSome = false := by rw [hemp]; rfl
    have hres : place m c p = (none, (solve m c p).write c p.toChar) := by
      rw [place, hplace1]
      simp
    have hinS : (solve m c p).inRange c :=
      (solve_inRange m c p c).mpr (WF_inRange hWF hr hc)
    refine ⟨by rw [hres], ?_, ?_, ?_⟩
    · rw [hres]
      dsimp only
      rw [piece_write_self hinS, charPiece_toChar]
    · intro x hx
      rw [hres]
      dsimp only
      rw [piece_write_ne hx, solve_isSome]
    · rw [hres]
      dsimp only
      have hempS : Position.piece (solve m c p) c = none := by
        rw [solve_piece_origin, hemp]
      rw [countOcc_write_empty hinS hempS (by cases p <;> rfl), solve_count]

/-- Witness for C10: on a concrete 4-by-4 grid, flipping the occupied cell
(1,1) and placing Red on the empty cell (1,0). -/
theorem occupancy_invariants_witness :
    Position.piece (Grid.mk 4 [[' ', ' ', ' ', ' '], [' ', 'B', 'R', ' '],
        [' ', ' ', ' ', ' '], [' ', ' ', ' ', ' ']]) ⟨1, 1⟩ = some Piece.Blue ∧
      (Grid.mk 4 [[' ', ' ', ' ', ' '], [' ', 'B', 'R', ' '],
        [' ', ' ', ' ', ' '], [' ', ' ', ' ', ' ']]).WF ∧
      (1 : Nat) < 4 ∧ (0 : Nat) < 4 ∧
      Position.piece (Grid.mk 4 [[' ', ' ', ' ', ' '], [' ', 'B', 'R', ' '],
        [' ', ' ', ' ', ' '], [' ', ' ', ' ', ' ']]) ⟨1, 0⟩ = none ∧
      flipSpecProp (Grid.mk 4 [[' ', ' ', ' ', ' '], [' ', 'B', 'R', ' '],
        [' ', ' ', ' ', ' '], [' ', ' ', ' ', ' ']]) ⟨1, 1⟩ Piece.Blue ∧
      placeCountProp (Grid.mk 4 [[' ', ' ', ' ', ' '], [' ', 'B', 'R', ' '],
        [' ', ' ', ' ', ' '], [' ', ' ', ' ', ' ']]) ⟨1, 0⟩ Piece.Red :=
  ⟨by decide, by decide, by decide, by decide, by decide,
    (occupancy_invariants (Grid.mk 4 [[' ', ' ', ' ', ' '], [' ', 'B', 'R', ' '],
      [' ', ' ', ' ', ' '], [' ', ' ', ' ', ' ']]) ⟨1, 0⟩ ⟨1, 1⟩ Piece.Red).1
      Piece.Blue (by decide),
    (occupancy_invariants (Grid.mk 4 [[' ', ' ', ' ', ' '], [' ', 'B', 'R', ' '],
      [' ', ' ', ' ', ' '], [' ', ' ', ' ', ' ']]) ⟨1, 0⟩ ⟨1, 1⟩ Piece.Red).2.2
      (by decide) (by decide) (by decide) (by decide)⟩
